import Mathlib

/-!
Verification of the browser-based Codeforces submission component
(`src/Extensions/CFTool.cpp` / `CFTool.hpp`).

Strings are modelled as `List Char` (`QString` is a sequence of UTF-16 code
units; all characters relevant here are in the BMP, so a character list is a
faithful model).  The Qt regular expressions of the source are embedded as
explicit matching functions with PCRE semantics spelled out:

* a leading greedy `.*` in an unanchored `QRegularExpression::match` selects
  the *last* position at which the remainder of the pattern matches
  (`scanLast`); a pattern without the leading `.*` selects the *first* such
  position (`scanFirst`);
* `(\d+)` / `([A-Za-z0-9]+)` / `\w+` followed by a character outside the
  class admit no backtracking, so they are exactly `takeWhile`/`dropWhile`
  of the class.

Side effects of `CFTool::submit` (log calls, the clipboard write, the
browser-open request, toast signals, and automation-process management) are
modelled as an event trace, in the order the source performs them.
-/

set_option maxRecDepth 4000

/-- Shorthand turning a string literal into the character-list representation
used throughout this development. -/
def sl (s : String) : List Char := s.toList

/-- `startsWithL p s` : the list `s` begins with the pattern `p`
(model of `QString::startsWith` / the anchored head of a regex). -/
def startsWithL : List Char → List Char → Bool
  | [], _ => true
  | _ :: _, [] => false
  | a :: as, b :: bs => a == b && startsWithL as bs

/-- `s` begins with `p`, as a proposition. -/
def LStarts (p s : List Char) : Prop := ∃ t, s = p ++ t

/-- `s` ends with `p`, as a proposition. -/
def LEnds (p s : List Char) : Prop := ∃ t, s = t ++ p

/-- `p` occurs as a contiguous substring of `s` (the semantics of
`QString::contains` and of an unanchored regex literal). -/
def Occ (p s : List Char) : Prop := ∃ x y, s = x ++ p ++ y

/-- `hasSub p s` : Boolean substring test, the model of `QString::contains`. -/
def hasSub (p : List Char) : List Char → Bool
  | [] => startsWithL p []
  | c :: t => startsWithL p (c :: t) || hasSub p t

/-- `stripLit lit s` : if `s` begins with the literal `lit`, return the rest,
otherwise fail.  Model for the literal fragments of the regular expressions. -/
def stripLit (lit s : List Char) : Option (List Char) :=
  if startsWithL lit s then some (s.drop lit.length) else none

/-- Word character of PCRE `\w` with default (ASCII) semantics:
letters, digits and underscore. -/
def isWordC (c : Char) : Bool := c.isAlphanum || c == '_'

/-- Unanchored scan preferring the earliest position: the semantics of a
`QRegularExpression::match` whose pattern has no leading `.*`
(PCRE tries start offsets left to right). -/
def scanFirst {α : Type} (m : List Char → Option α) : List Char → Option α
  | [] => m []
  | c :: t =>
    match m (c :: t) with
    | some r => some r
    | none => scanFirst m t

/-- Unanchored scan preferring the latest position: the semantics of a
pattern beginning with a greedy `.*`, which consumes as much as possible
before the rest of the pattern is tried (so the last matching position
wins).  `.` not matching a newline is irrelevant here: no theorem below
is instantiated at a string containing a newline. -/
def scanLast {α : Type} (m : List Char → Option α) : List Char → Option α
  | [] => m []
  | c :: t =>
    match scanLast m t with
    | some r => some r
    | none => m (c :: t)

/-- Split at the first occurrence of a pattern: `some (before, after)` when
the pattern occurs, `none` otherwise.  This is the single step of
`QString::split` (which scans left to right for non-overlapping
occurrences). -/
def splitFirst (pat : List Char) : List Char → Option (List Char × List Char)
  | [] => if startsWithL pat [] then some ([], []) else none
  | c :: t =>
    if startsWithL pat (c :: t) then some ([], (c :: t).drop pat.length)
    else
      match splitFirst pat t with
      | some (a, b) => some (c :: a, b)
      | none => none

/-- Fuelled worker for `splitSub`. -/
def splitSubAux (pat : List Char) : Nat → List Char → List (List Char)
  | 0, s => [s]
  | Nat.succ f, s =>
    match splitFirst pat s with
    | none => [s]
    | some (a, b) => a :: splitSubAux pat f b

/-- Model of `QString::split(sep)` with the default `KeepEmptyParts`
behaviour: the chunks of `s` between consecutive non-overlapping
occurrences of `pat`, scanning left to right. -/
def splitSub (pat s : List Char) : List (List Char) := splitSubAux pat (s.length + 1) s

/-- Number of positions at which `pat` occurs in the second argument
(occurrences may overlap; each starting position counts once). -/
def countOcc (pat : List Char) : List Char → Nat
  | [] => if startsWithL pat [] then 1 else 0
  | c :: t => (if startsWithL pat (c :: t) then 1 else 0) + countOcc pat t

/-- `endsWithL p s` : Boolean test that `s` ends with `p`. -/
def endsWithL (p s : List Char) : Bool := startsWithL p.reverse s.reverse

/-- Source string literals of `CFTool.cpp` used by `submit` and
`parseCfUrl`. -/
def probL : List Char := sl "/problem/"

def subL : List Char := sl "/submit/"

def contestL : List Char := sl "/contest/"

def gymL : List Char := sl "/gym/"

def psL : List Char := sl "/problemset/problem/"

def groupL : List Char := sl "/group/"

/-- Common tail `(\d+)/problem/([A-Za-z0-9]+)` of the contest and group
regexes: a non-empty digit run, the literal `"/problem/"`, and a non-empty
alphanumeric run, yielding the two captures. -/
def digitProbTail (s2 : List Char) : Option (List Char × List Char) :=
  let d := s2.takeWhile Char.isDigit
  if d.isEmpty then none
  else
    (stripLit probL (s2.dropWhile Char.isDigit)).bind fun s4 =>
    let x := s4.takeWhile Char.isAlphanum
    if x.isEmpty then none else some (d, x)

/-- Embedding of the regex
`.*://codeforces\.com/(?:gym|contest)/(\d+)/problem/([A-Za-z0-9]+)`
(CFTool.cpp lines 293-295) at one candidate position: the literal head, the
`gym`/`contest` alternation (tried in this order, as in the pattern), a
non-empty digit run, the literal `"/problem/"`, and a non-empty alphanumeric
run.  Returns the two captures `(contestId, problemCode)`. -/
def matchContest (s : List Char) : Option (List Char × List Char) :=
  (stripLit (sl "://codeforces.com/") s).bind fun s1 =>
  ((stripLit (sl "gym/") s1).orElse (fun _ => stripLit (sl "contest/") s1)).bind digitProbTail

/-- Embedding of the regex
`.*://codeforces\.com/problemset/problem/(\d+)/([A-Za-z0-9]+)`
(CFTool.cpp lines 304-306) at one candidate position. -/
def matchPs (s : List Char) : Option (List Char × List Char) :=
  (stripLit (sl "://codeforces.com/problemset/problem/") s).bind fun s1 =>
  (let d := s1.takeWhile Char.isDigit
   if d.isEmpty then none
   else
     (stripLit (sl "/") (s1.dropWhile Char.isDigit)).bind fun s2 =>
     let x := s2.takeWhile Char.isAlphanum
     if x.isEmpty then none else some (d, x))

/-- Embedding of the regex
`.*://codeforces\.com/group/\w+/contest/(\d+)/problem/([A-Za-z0-9]+)`
(CFTool.cpp lines 315-317) at one candidate position. -/
def matchGroup (s : List Char) : Option (List Char × List Char) :=
  (stripLit (sl "://codeforces.com/group/") s).bind fun s1 =>
  (let w := s1.takeWhile isWordC
   if w.isEmpty then none
   else
     (stripLit (sl "/contest/") (s1.dropWhile isWordC)).bind digitProbTail)

/-- Embedding of the regex `/problemset/problem/(\d+)/([A-Za-z0-9]+)` used by
the rewrite step of `submit` (CFTool.cpp line 95); this one has no leading
`.*`, so the unanchored match picks the first matching position. -/
def matchPsSubmit (s : List Char) : Option (List Char × List Char) :=
  (stripLit psL s).bind fun s1 =>
  (let d := s1.takeWhile Char.isDigit
   if d.isEmpty then none
   else
     (stripLit (sl "/") (s1.dropWhile Char.isDigit)).bind fun s2 =>
     let x := s2.takeWhile Char.isAlphanum
     if x.isEmpty then none else some (d, x))

/-- Embedding of `CFTool::parseCfUrl` (CFTool.cpp lines 288-326): the three
pattern families are tried in source order; the captures of the first match
are returned, `none` reports the not-found outcome (`return false`). -/
def parseCfUrl (url : List Char) : Option (List Char × List Char) :=
  match scanLast matchContest url with
  | some r => some r
  | none =>
    match scanLast matchPs url with
    | some r => some r
    | none => scanLast matchGroup url

/-- The problem-index truncation `parts[1].split("?")[0].split("#")[0]`
(CFTool.cpp line 81): keep the part before the first `?`, then before the
first `#`. -/
def truncIdx (b : List Char) : List Char :=
  (b.takeWhile (fun c => c != '?')).takeWhile (fun c => c != '#')

/-- The split-based rewrite shared verbatim by the contest, gym and group
branches of `submit` (CFTool.cpp lines 79-83, 87-91, 105-109):
`parts = url.split("/problem/"); targetUrl = parts[0] + "/submit/" +
parts[1].split("?")[0].split("#")[0]` guarded by `parts.size() >= 2`. -/
def splitTransform (u : List Char) : List Char :=
  let parts := splitSub probL u
  if 2 ≤ parts.length then (parts.getD 0 []) ++ subL ++ truncIdx (parts.getD 1 [])
  else u

/-- Embedding of the `targetUrl` computation of `CFTool::submit`
(CFTool.cpp lines 75-110): four `contains`-guarded branches tried in source
order; if none applies the URL is returned unchanged. -/
def rewriteUrl (u : List Char) : List Char :=
  if hasSub contestL u && hasSub probL u then splitTransform u
  else if hasSub gymL u && hasSub probL u then splitTransform u
  else if hasSub psL u then
    match scanFirst matchPsSubmit u with
    | some (cid, pidx) =>
      sl "https://codeforces.com/contest/" ++ cid ++ sl "/submit/" ++ pidx
    | none => u
  else if hasSub groupL u && hasSub probL u then splitTransform u
  else u

/-- Embedding of `CFTool::check` (CFTool.cpp lines 275-280): the path is
ignored and the check always succeeds, since browser submission needs no
`cf-tool` binary. -/
def check (_path : List Char) : Bool := true

/-- The four URL families recognized by the rewrite branches of `submit`
(CFTool.cpp lines 78, 86, 94, 104): the Boolean guards in source order. -/
def recognizedFamily (u : List Char) : Bool :=
  (hasSub contestL u && hasSub probL u) || (hasSub gymL u && hasSub probL u) ||
    hasSub psL u || (hasSub groupL u && hasSub probL u)

/-- Build platform selected by the `#ifdef` chain of `automateSubmission`
(CFTool.cpp lines 134, 208, 240, 268). -/
inductive Platform
  | macos
  | linux
  | windows
  | other
deriving DecidableEq

/-- Observable side effects of the orchestrator, in the order the source
performs them: `MessageLogger` calls (info/warn/error bodies, the "CF Tool"
heading being fixed), the clipboard write, the browser-open request, emitted
toast signals, and automation-process management. -/
inductive Ev
  | logInfo (body : List Char)
  | logWarn (body : List Char)
  | logError (body : List Char)
  | clipboardSet (text : List Char)
  | openUrl (target : List Char)
  | toast (head body : List Char)
  | killProc (pid : Nat)
  | spawnProc (pid : Nat)
deriving DecidableEq

/-- The mutable members of `CFTool` relevant to `submit`
(CFTool.hpp lines 38-40). -/
structure CFState where
  problemContestId : List Char
  problemCode : List Char
  browserAutomation : Option Nat
deriving DecidableEq

/-- Reading the file through `QTextStream` on a `QIODevice` opened with the
`Text` flag translates Windows line endings: every `"\r\n"` byte pair becomes
`"\n"`. -/
def textRead : List Char → List Char
  | [] => []
  | '\r' :: '\n' :: t => '\n' :: textRead t
  | c :: t => c :: textRead t

/-- ASCII whitespace as stripped by `QString::trimmed` (`QChar::isSpace`;
the Unicode space characters it also covers play no role here). -/
def isQtSpace (c : Char) : Bool :=
  c == ' ' || c == '\t' || c == '\n' || c == Char.ofNat 11 || c == Char.ofNat 12 || c == '\r'

/-- Model of `QString::trimmed`: strip whitespace from both ends. -/
def trimmed (s : List Char) : List Char :=
  ((s.dropWhile isQtSpace).reverse.dropWhile isQtSpace).reverse

/-- The toast headline `tr("Contest %1 Problem %2").arg(id).arg(code)`
(CFTool.cpp line 343).  The stored identifiers are regex captures made of
digits and alphanumerics (or empty), so they contain no `%` and the two
`arg` substitutions amount to plain concatenation. -/
def headline (st : CFState) : List Char :=
  sl "Contest " ++ st.problemContestId ++ sl " Problem " ++ st.problemCode

/-- `CFTool::showToastMessage` (lines 340-344): emits the toast signal only
when the `CFShowToastMessages` setting is on. -/
def toastEvs (st : CFState) (showToast : Bool) (body : List Char) : List Ev :=
  if showToast then [Ev.toast (headline st) body] else []

def startBody : List Char := sl "Starting auto-submission..."

def readFailBody (filePath : List Char) : List Char :=
  sl "Failed to read source file: " ++ filePath

def emptyBody : List Char := sl "Source code is empty!"

def copiedBody (len : Nat) : List Char :=
  sl "Code copied to clipboard (" ++ (toString len).toList ++ sl " chars)"

def openingBody (target : List Char) : List Char := sl "Opening: " ++ target

def browserOpenedBody : List Char := sl "Browser opened - auto-submitting..."

def autoToastBody : List Char := sl "Auto-submitting..."

def browserFailBody : List Char := sl "Failed to open browser"

def fallbackBody : List Char := sl "Press Cmd/Ctrl+V to paste, then click Submit."

def fallbackToastBody : List Char := sl "Paste & Submit manually"

def doneBody : List Char := sl "✓ Submitted! Check browser for verdict."

def macDoneToast : List Char := sl "Submitted! Check verdict"

def macWarnBody : List Char := sl "Auto-submit may have failed. Check browser."

def macWarnToast : List Char := sl "Check browser"

def plainDoneToast : List Char := sl "Submitted!"

/-- `CFTool::automateSubmission` (lines 129-273), process management part.
On the three platforms with an automation strategy the previous `QProcess`
is killed and deleted if present, then a fresh process is created and
started (`fresh` stands for its handle); the completion notifications are
delivered asynchronously and are modelled by `automationFinished`.  On other
platforms no process is spawned and the manual-instruction message is shown
(lines 268-272). -/
def automateSubmission (st : CFState) (showToast : Bool) (plat : Platform)
    (fresh : Nat) : List Ev × CFState :=
  match plat with
  | .macos | .linux | .windows =>
    ((match st.browserAutomation with
      | some p => [Ev.killProc p]
      | none => []) ++ [Ev.spawnProc fresh],
     { st with browserAutomation := some fresh })
  | .other =>
    ([Ev.logInfo fallbackBody] ++ toastEvs st showToast fallbackToastBody, st)

/-- The `QProcess::finished` handlers connected by `automateSubmission`:
macOS (lines 189-199) branches on the exit code; Linux (lines 230-236) and
Windows (lines 258-264) ignore it (`Q_UNUSED(exitCode)`) and always report
success. -/
def automationFinished (plat : Platform) (st : CFState) (showToast : Bool)
    (exitCode : Int) : List Ev :=
  match plat with
  | .macos =>
    if exitCode = 0 then Ev.logInfo doneBody :: toastEvs st showToast macDoneToast
    else Ev.logWarn macWarnBody :: toastEvs st showToast macWarnToast
  | .linux => Ev.logInfo doneBody :: toastEvs st showToast plainDoneToast
  | .windows => Ev.logInfo doneBody :: toastEvs st showToast plainDoneToast
  | .other => []

/-- `CFTool::submit` (lines 46-127).  `fileContent = none` models
`QFile::open` failing; otherwise `fileContent = some raw` holds the raw
bytes and the text read through `QTextStream` is `textRead raw`.  The
`Ev.openUrl` event is the `QDesktopServices::openUrl` request, whose Boolean
result is the `browserOpened` parameter. -/
def submit (st : CFState) (filePath : List Char) (fileContent : Option (List Char))
    (url : List Char) (showToast : Bool) (browserOpened : Bool) (plat : Platform)
    (fresh : Nat) : List Ev × CFState :=
  let st1 := match parseCfUrl url with
    | some r => { st with problemContestId := r.1, problemCode := r.2 }
    | none => st
  match fileContent with
  | none => ([Ev.logInfo startBody, Ev.logError (readFailBody filePath)], st1)
  | some raw =>
    let sourceCode := textRead raw
    if (trimmed sourceCode).isEmpty then
      ([Ev.logInfo startBody, Ev.logError emptyBody], st1)
    else
      let targetUrl := rewriteUrl url
      let pre := [Ev.logInfo startBody, Ev.clipboardSet sourceCode,
        Ev.logInfo (copiedBody sourceCode.length), Ev.logInfo (openingBody targetUrl),
        Ev.openUrl targetUrl]
      if browserOpened then
        let auto := automateSubmission st1 showToast plat fresh
        (pre ++ Ev.logInfo browserOpenedBody :: toastEvs st1 showToast autoToastBody ++ auto.1,
         auto.2)
      else
        (pre ++ Ev.logError browserFailBody :: toastEvs st1 showToast browserFailBody, st1)

/-- Set of live automation processes after a list of events, starting from
an initial set. -/
def aliveAfter (init : List Nat) (t : List Ev) : List Nat :=
  t.foldl (fun alive e =>
    match e with
    | Ev.killProc p => alive.erase p
    | Ev.spawnProc p => alive ++ [p]
    | _ => alive) init

/-- The externally visible side effects named by the abort claims: clipboard
writes, browser-open requests and automation spawns. -/
def isSideEffect : Ev → Bool
  | Ev.clipboardSet _ => true
  | Ev.openUrl _ => true
  | Ev.spawnProc _ => true
  | _ => false

theorem startsWithL_iff (p s : List Char) : startsWithL p s = true ↔ LStarts p s := by
  induction p generalizing s with
  | nil => simp [startsWithL, LStarts]
  | cons a as ih =>
    cases s with
    | nil =>
      simp only [startsWithL, LStarts]
      constructor
      · intro h; cases h
      · rintro ⟨t, ht⟩; cases ht
    | cons b bs =>
      simp only [startsWithL, Bool.and_eq_true, beq_iff_eq, ih, LStarts]
      constructor
      · rintro ⟨rfl, t, rfl⟩; exact ⟨t, rfl⟩
      · rintro ⟨t, ht⟩
        injection ht with h1 h2
        exact ⟨h1.symm, t, h2⟩

theorem hasSub_iff (p s : List Char) : hasSub p s = true ↔ Occ p s := by
  induction s with
  | nil =>
    simp only [hasSub, startsWithL_iff, LStarts, Occ]
    constructor
    · rintro ⟨t, ht⟩; exact ⟨[], t, ht⟩
    · rintro ⟨x, y, h⟩
      cases x with
      | nil => exact ⟨y, h⟩
      | cons c cs => cases h
  | cons c t ih =>
    simp only [hasSub, Bool.or_eq_true, startsWithL_iff, LStarts, ih, Occ]
    constructor
    · rintro (⟨r, hr⟩ | ⟨x, y, h⟩)
      · exact ⟨[], r, hr⟩
      · exact ⟨c :: x, y, by simp [h]⟩
    · rintro ⟨x, y, h⟩
      cases x with
      | nil => exact Or.inl ⟨y, h⟩
      | cons d ds =>
        injection h with h1 h2
        exact Or.inr ⟨ds, y, h2⟩

theorem hasSub_eq_false_iff (p s : List Char) : hasSub p s = false ↔ ¬ Occ p s := by
  rw [← hasSub_iff]
  cases hasSub p s <;> simp

/-- An occurrence of a pattern is at most as long as the string. -/
theorem Occ.length_le {p s : List Char} (h : Occ p s) : p.length ≤ s.length := by
  obtain ⟨x, y, rfl⟩ := h
  simp [List.length_append]
  omega

/-- Every character of an occurring pattern is a character of the string. -/
theorem Occ.mem {p s : List Char} (h : Occ p s) {c : Char} (hc : c ∈ p) : c ∈ s := by
  obtain ⟨x, y, rfl⟩ := h
  simp [hc]

/-- A pattern containing a character outside a class satisfied by all of `s`
cannot occur in `s`. -/
theorem not_occ_of_class {p s : List Char} {P : Char → Prop}
    (hs : ∀ c ∈ s, P c) {c : Char} (hc : c ∈ p) (hcP : ¬ P c) : ¬ Occ p s :=
  fun h => hcP (hs c (h.mem hc))

/-- Decomposition of an occurrence in a concatenation: the occurrence lies in
the left part, lies in the right part, or spans the border, in which case the
pattern splits into a non-empty suffix of the left part followed by a
non-empty part leading the right part. -/
theorem occ_append {p A B : List Char} (h : Occ p (A ++ B)) :
    Occ p A ∨ Occ p B ∨
      ∃ p1 p2, p = p1 ++ p2 ∧ p1 ≠ [] ∧ p2 ≠ [] ∧ LEnds p1 A ∧ LStarts p2 B := by
  obtain ⟨x, y, hxy⟩ := h
  rw [List.append_assoc] at hxy
  rcases List.append_eq_append_iff.mp hxy with ⟨a1, ha1, ha2⟩ | ⟨c1, hc1, hc2⟩
  · -- x = A ++ a1, B = a1 ++ (p ++ y)
    right; left
    exact ⟨a1, y, by rw [ha2, List.append_assoc]⟩
  · -- A = x ++ c1, p ++ y = c1 ++ B
    rcases List.append_eq_append_iff.mp hc2 with ⟨k, hk1, hk2⟩ | ⟨k, hk1, hk2⟩
    · -- c1 = p ++ k, y = k ++ B
      left
      exact ⟨x, k, by rw [hc1, hk1, List.append_assoc]⟩
    · -- p = c1 ++ k, B = k ++ y
      cases c1 with
      | nil =>
        right; left
        refine ⟨[], y, ?_⟩
        simp only [List.nil_append] at hk1
        rw [hk2, hk1]
        simp
      | cons d ds =>
        cases k with
        | nil =>
          left
          refine ⟨x, [], ?_⟩
          rw [hc1, hk1]
          simp
        | cons e es =>
          right; right
          exact ⟨d :: ds, e :: es, hk1, by simp, by simp, ⟨x, hc1⟩, ⟨y, hk2⟩⟩

/-- A non-empty left factor of a pattern starts with the pattern's first
character. -/
theorem head_mem_left_factor {p p1 p2 : List Char} (hp : p = p1 ++ p2)
    (h1 : p1 ≠ []) {c : Char} (hc : p.head? = some c) : c ∈ p1 := by
  cases p1 with
  | nil => exact absurd rfl h1
  | cons d ds =>
    subst hp
    simp only [List.cons_append, List.head?_cons, Option.some_inj] at hc
    simp [hc]

/-- A non-empty right factor of a pattern ends with the pattern's last
character. -/
theorem last_mem_right_factor {p p1 p2 : List Char} (hp : p = p1 ++ p2)
    (h2 : p2 ≠ []) {c : Char} (hc : p.getLast? = some c) : c ∈ p2 := by
  subst hp
  rw [List.getLast?_append_of_ne_nil _ h2] at hc
  exact List.mem_of_mem_getLast? hc

/-- Characters of a suffix belong to the list. -/
theorem LEnds.mem_of_mem_right {p s : List Char} (h : LEnds p s) {c : Char} (hc : c ∈ p) : c ∈ s := by
  obtain ⟨t, rfl⟩ := h
  simp [hc]

/-- Characters of a leading part belong to the list. -/
theorem LStarts.mem_of_mem_left {p s : List Char} (h : LStarts p s) {c : Char} (hc : c ∈ p) : c ∈ s := by
  obtain ⟨t, rfl⟩ := h
  simp [hc]

/-- `takeWhile` over a list whose members all satisfy the predicate,
followed by a failing character: it returns exactly the leading block. -/
theorem takeWhile_append_stop {p : Char → Bool} {a : List Char} (ha : ∀ c ∈ a, p c = true)
    {c0 : Char} (hc0 : p c0 = false) (r : List Char) :
    (a ++ c0 :: r).takeWhile p = a := by
  induction a with
  | nil => simp [List.takeWhile_cons, hc0]
  | cons d ds ih =>
    have hd : p d = true := ha d (by simp)
    simp only [List.cons_append, List.takeWhile_cons, hd]
    simp [ih (fun c hc => ha c (by simp [hc]))]

/-- Companion of `takeWhile_append_stop` for `dropWhile`. -/
theorem dropWhile_append_stop {p : Char → Bool} {a : List Char} (ha : ∀ c ∈ a, p c = true)
    {c0 : Char} (hc0 : p c0 = false) (r : List Char) :
    (a ++ c0 :: r).dropWhile p = c0 :: r := by
  induction a with
  | nil => simp [List.dropWhile_cons, hc0]
  | cons d ds ih =>
    have hd : p d = true := ha d (by simp)
    simp only [List.cons_append, List.dropWhile_cons, hd]
    simp [ih (fun c hc => ha c (by simp [hc]))]

/-- `takeWhile` of a list all of whose members satisfy the predicate. -/
theorem takeWhile_eq_self {p : Char → Bool} {a : List Char} (ha : ∀ c ∈ a, p c = true) :
    a.takeWhile p = a := by
  induction a with
  | nil => rfl
  | cons d ds ih =>
    have hd : p d = true := ha d (by simp)
    simp only [List.takeWhile_cons, hd]
    simp [ih (fun c hc => ha c (by simp [hc]))]

/-- `dropWhile` of a list all of whose members satisfy the predicate. -/
theorem dropWhile_eq_nil {p : Char → Bool} {a : List Char} (ha : ∀ c ∈ a, p c = true) :
    a.dropWhile p = [] := by
  induction a with
  | nil => rfl
  | cons d ds ih =>
    have hd : p d = true := ha d (by simp)
    simp only [List.dropWhile_cons, hd]
    exact ih (fun c hc => ha c (by simp [hc]))

/-- Members of a `takeWhile` result satisfy the predicate. -/
theorem mem_takeWhile_class {p : Char → Bool} {a : List Char} {c : Char}
    (h : c ∈ a.takeWhile p) : p c = true := by
  induction a with
  | nil => cases h
  | cons d ds ih =>
    by_cases hd : p d = true
    · rw [List.takeWhile_cons, if_pos hd] at h
      rcases List.mem_cons.mp h with rfl | h2
      · exact hd
      · exact ih h2
  
    · rw [List.takeWhile_cons, if_neg hd] at h
      cases h

/-- `takeWhile` splits the list: the kept block followed by the dropped rest. -/
theorem takeWhile_append_dropWhile_eq (p : Char → Bool) (a : List Char) :
    a.takeWhile p ++ a.dropWhile p = a := by
  induction a with
  | nil => rfl
  | cons d ds ih =>
    by_cases hd : p d = true
    · simp [List.takeWhile_cons, List.dropWhile_cons, hd, ih]
    · simp [List.takeWhile_cons, List.dropWhile_cons, hd]

theorem stripLit_self (lit r : List Char) : stripLit lit (lit ++ r) = some r := by
  have h : startsWithL lit (lit ++ r) = true := (startsWithL_iff _ _).mpr ⟨r, rfl⟩
  simp [stripLit, h, List.drop_left]

theorem stripLit_eq_some {lit s r : List Char} (h : stripLit lit s = some r) :
    s = lit ++ r := by
  unfold stripLit at h
  by_cases hp : startsWithL lit s = true
  · rw [if_pos hp, Option.some_inj] at h
    obtain ⟨t, rfl⟩ := (startsWithL_iff _ _).mp hp
    rw [← h, List.drop_left]
  · rw [if_neg hp] at h
    cases h

theorem stripLit_is_none {lit s : List Char} (h : ¬ LStarts lit s) :
    stripLit lit s = none := by
  unfold stripLit
  rw [if_neg (fun hp => h ((startsWithL_iff _ _).mp hp))]

theorem scanFirst_some {α : Type} {m : List Char → Option α} {s : List Char} {r : α}
    (h : scanFirst m s = some r) : ∃ s0, s0 <:+ s ∧ m s0 = some r := by
  induction s with
  | nil => exact ⟨[], List.nil_suffix, h⟩
  | cons c t ih =>
    unfold scanFirst at h
    cases hm : m (c :: t) with
    | some r0 =>
      rw [hm] at h
      cases h
      exact ⟨c :: t, List.suffix_refl _, hm⟩
    | none =>
      rw [hm] at h
      obtain ⟨s0, hs0, hm0⟩ := ih h
      exact ⟨s0, hs0.trans (List.suffix_cons c t), hm0⟩

theorem scanLast_some {α : Type} {m : List Char → Option α} {s : List Char} {r : α}
    (h : scanLast m s = some r) : ∃ s0, s0 <:+ s ∧ m s0 = some r := by
  induction s with
  | nil => exact ⟨[], List.nil_suffix, h⟩
  | cons c t ih =>
    unfold scanLast at h
    cases hm : scanLast m t with
    | some r0 =>
      rw [hm] at h
      cases h
      obtain ⟨s0, hs0, hm0⟩ := ih hm
      exact ⟨s0, hs0.trans (List.suffix_cons c t), hm0⟩
    | none =>
      rw [hm] at h
      exact ⟨c :: t, List.suffix_refl _, h⟩

theorem scanLast_eq_none {α : Type} {m : List Char → Option α} {s : List Char}
    (h : ∀ s0, s0 <:+ s → m s0 = none) : scanLast m s = none := by
  induction s with
  | nil => exact h [] (List.nil_suffix)
  | cons c t ih =>
    unfold scanLast
    rw [ih (fun s0 hs0 => h s0 (hs0.trans (List.suffix_cons c t)))]
    exact h (c :: t) (List.suffix_refl _)

theorem scanFirst_eq_none {α : Type} {m : List Char → Option α} {s : List Char}
    (h : ∀ s0, s0 <:+ s → m s0 = none) : scanFirst m s = none := by
  induction s with
  | nil => exact h [] (List.nil_suffix)
  | cons c t ih =>
    unfold scanFirst
    rw [h (c :: t) (List.suffix_refl _)]
    exact ih (fun s0 hs0 => h s0 (hs0.trans (List.suffix_cons c t)))

/-- If the matcher succeeds at exactly one suffix, `scanLast` returns that
success. -/
theorem scanLast_unique {α : Type} {m : List Char → Option α} {s s0 : List Char} {r : α}
    (hs0 : s0 <:+ s) (hm : m s0 = some r)
    (huniq : ∀ s1, s1 <:+ s → s1 ≠ s0 → m s1 = none) : scanLast m s = some r := by
  induction s with
  | nil =>
    obtain rfl : s0 = [] := List.suffix_nil.mp hs0
    exact hm
  | cons c t ih =>
    unfold scanLast
    rcases List.suffix_cons_iff.mp hs0 with rfl | hs0t
    · have hnone : scanLast m t = none := by
        refine scanLast_eq_none (fun s1 hs1 => ?_)
        refine huniq s1 (hs1.trans (List.suffix_cons c t)) (fun hEq => ?_)
        subst hEq
        have := hs1.length_le
        simp at this
      rw [hnone, hm]
    · have ht : scanLast m t = some r :=
        ih hs0t (fun s1 hs1 h1 => huniq s1 (hs1.trans (List.suffix_cons c t)) h1)
      rw [ht]

/-- If the matcher succeeds at exactly one suffix, `scanFirst` returns that
success. -/
theorem scanFirst_unique {α : Type} {m : List Char → Option α} {s s0 : List Char} {r : α}
    (hs0 : s0 <:+ s) (hm : m s0 = some r)
    (huniq : ∀ s1, s1 <:+ s → s1 ≠ s0 → m s1 = none) : scanFirst m s = some r := by
  induction s with
  | nil =>
    obtain rfl : s0 = [] := List.suffix_nil.mp hs0
    exact hm
  | cons c t ih =>
    unfold scanFirst
    rcases List.suffix_cons_iff.mp hs0 with rfl | hs0t
    · rw [hm]
    · have hcons : m (c :: t) = none := by
        refine huniq (c :: t) (List.suffix_refl _) (fun hEq => ?_)
        have := hs0t.length_le
        rw [← hEq] at this
        simp at this
      rw [hcons]
      exact ih hs0t (fun s1 hs1 h1 => huniq s1 (hs1.trans (List.suffix_cons c t)) h1)

theorem splitFirst_spec {pat s a b : List Char} (h : splitFirst pat s = some (a, b)) :
    s = a ++ pat ++ b := by
  induction s generalizing a with
  | nil =>
    unfold splitFirst at h
    by_cases hp : startsWithL pat [] = true
    · rw [if_pos hp] at h
      obtain ⟨t, ht⟩ := (startsWithL_iff _ _).mp hp
      cases t with
      | nil =>
        injection h with h1
        injection h1 with h2 h3
        subst h2; subst h3
        simpa using ht
      | cons d ds => simp at ht
    · rw [if_neg hp] at h
      cases h
  | cons c t ih =>
    unfold splitFirst at h
    by_cases hp : startsWithL pat (c :: t) = true
    · rw [if_pos hp] at h
      obtain ⟨r, hr⟩ := (startsWithL_iff _ _).mp hp
      injection h with h1
      injection h1 with h2 h3
      subst h2
      rw [hr, List.drop_left] at h3
      subst h3
      simpa using hr
    · rw [if_neg hp] at h
      cases hsf : splitFirst pat t with
      | some ab =>
        obtain ⟨a0, b0⟩ := ab
        rw [hsf] at h
        injection h with h1
        injection h1 with h2 h3
        subst h3
        have := ih hsf
        rw [← h2, this]
        simp
      | none =>
        rw [hsf] at h
        cases h

theorem splitFirst_isSome_of_occ {pat s : List Char} (h : Occ pat s) :
    ∃ a b, splitFirst pat s = some (a, b) := by
  induction s with
  | nil =>
    obtain ⟨x, y, hxy⟩ := h
    have hxy' : x ++ pat ++ y = [] := hxy.symm
    rw [List.append_eq_nil, List.append_eq_nil] at hxy'
    obtain ⟨⟨hx, hp⟩, hy⟩ := hxy'
    subst hx; subst hp
    exact ⟨[], [], by simp [splitFirst, startsWithL]⟩
  | cons c t ih =>
    by_cases hp : startsWithL pat (c :: t) = true
    · exact ⟨[], (c :: t).drop pat.length, by unfold splitFirst; rw [if_pos hp]⟩
    · obtain ⟨x, y, hxy⟩ := h
      cases x with
      | nil =>
        exact absurd ((startsWithL_iff _ _).mpr ⟨y, by simpa using hxy⟩) hp
      | cons d ds =>
        injection hxy with h1 h2
        obtain ⟨a0, b0, hab⟩ := ih ⟨ds, y, h2⟩
        refine ⟨c :: a0, b0, ?_⟩
        unfold splitFirst
        rw [if_neg hp, hab]

theorem splitFirst_eq_none_of_not_occ {pat s : List Char} (h : ¬ Occ pat s) :
    splitFirst pat s = none := by
  cases hsf : splitFirst pat s with
  | none => rfl
  | some ab =>
    obtain ⟨a, b⟩ := ab
    exact absurd ⟨a, b, splitFirst_spec hsf⟩ h

/-- The residue of a successful split of a non-empty pattern is shorter than
the input. -/
theorem splitFirst_shrinks {pat s a b : List Char} (hp : pat ≠ [])
    (h : splitFirst pat s = some (a, b)) : b.length < s.length := by
  have hs := splitFirst_spec h
  have hlen : s.length = a.length + pat.length + b.length := by
    rw [hs]; simp only [List.length_append]
  have hplen : 0 < pat.length := List.length_pos.mpr hp
  omega

theorem splitSubAux_succ (pat : List Char) (f : Nat) (s : List Char) :
    splitSubAux pat (f + 1) s =
      match splitFirst pat s with
      | none => [s]
      | some (a, b) => a :: splitSubAux pat f b := rfl

theorem splitSubAux_fuel {pat : List Char} (hp : pat ≠ []) :
    ∀ f1 f2 s, s.length < f1 → s.length < f2 →
      splitSubAux pat f1 s = splitSubAux pat f2 s := by
  intro f1
  induction f1 with
  | zero => intro f2 s h1; omega
  | succ g ih =>
    intro f2 s h1 h2
    cases f2 with
    | zero => omega
    | succ g2 =>
      rw [splitSubAux_succ, splitSubAux_succ]
      cases hsf : splitFirst pat s with
      | none => rfl
      | some ab =>
        obtain ⟨a, b⟩ := ab
        have hb := splitFirst_shrinks hp hsf
        simp only
        rw [ih g2 b (by omega) (by omega)]

theorem splitSub_of_none {pat s : List Char} (h : splitFirst pat s = none) :
    splitSub pat s = [s] := by
  unfold splitSub splitSubAux
  rw [h]

theorem splitSub_of_some {pat s a b : List Char} (hp : pat ≠ [])
    (h : splitFirst pat s = some (a, b)) : splitSub pat s = a :: splitSub pat b := by
  unfold splitSub
  have hb := splitFirst_shrinks hp h
  rw [splitSubAux_succ, h]
  simp only
  rw [splitSubAux_fuel hp (s.length) (b.length + 1) b (by omega) (by omega)]

theorem countOcc_pos_of_occ {pat s : List Char} (h : Occ pat s) : 1 ≤ countOcc pat s := by
  obtain ⟨x, y, hxy⟩ := h
  induction x generalizing s with
  | nil =>
    have hsw : startsWithL pat s = true := (startsWithL_iff _ _).mpr ⟨y, by simpa using hxy⟩
    cases s with
    | nil => simp [countOcc, hsw]
    | cons c t => simp [countOcc, hsw]
  | cons d ds ih =>
    subst hxy
    have h2 : 1 ≤ countOcc pat (ds ++ pat ++ y) := ih rfl
    have hstep : countOcc pat ((d :: ds) ++ pat ++ y) =
        (if startsWithL pat ((d :: ds) ++ pat ++ y) = true then 1 else 0) +
          countOcc pat (ds ++ pat ++ y) := rfl
    rw [hstep]
    omega

/-- Two occurrences at different offsets force the occurrence count to at
least two. -/
theorem countOcc_two {pat s x y x' y' : List Char} (h1 : s = x ++ pat ++ y)
    (h2 : s = x' ++ pat ++ y') (hne : x.length < x'.length) : 2 ≤ countOcc pat s := by
  induction x generalizing s x' with
  | nil =>
    have hsw : startsWithL pat s = true :=
      (startsWithL_iff _ _).mpr ⟨y, by simpa using h1⟩
    cases x' with
    | nil => simp at hne
    | cons d ds =>
      cases s with
      | nil => simp at h2
      | cons c t =>
        injection h2 with hc ht
        have hocc : 1 ≤ countOcc pat t := countOcc_pos_of_occ ⟨ds, y', ht⟩
        have hcons : countOcc pat (c :: t) =
            (if startsWithL pat (c :: t) = true then 1 else 0) + countOcc pat t := rfl
        rw [hcons, if_pos hsw]
        omega
  | cons d ds ih =>
    cases s with
    | nil => simp at h1
    | cons c t =>
      cases x' with
      | nil => simp at hne
      | cons e es =>
        injection h1 with hc1 ht1
        injection h2 with hc2 ht2
        have hrec : 2 ≤ countOcc pat t := @ih t es ht1 ht2 (by simpa using hne)
        have hcons : countOcc pat (c :: t) =
            (if startsWithL pat (c :: t) = true then 1 else 0) + countOcc pat t := rfl
        rw [hcons]
        omega

/-- In a string with at most one occurrence position, any two occurrence
decompositions agree. -/
theorem occ_unique_of_countOcc {pat s x y x' y' : List Char}
    (hcount : countOcc pat s ≤ 1) (h1 : s = x ++ pat ++ y) (h2 : s = x' ++ pat ++ y') :
    x = x' ∧ y = y' := by
  have hlen : x.length = x'.length := by
    rcases Nat.lt_trichotomy x.length x'.length with h | h | h
    · exact absurd (countOcc_two h1 h2 h) (by omega)
    · exact h
    · exact absurd (countOcc_two h2 h1 h) (by omega)
  have happ : x ++ (pat ++ y) = x' ++ (pat ++ y') := by
    rw [← List.append_assoc, ← List.append_assoc, ← h1, ← h2]
  have hx := List.append_inj happ hlen
  exact ⟨hx.1, (List.append_right_inj pat).mp hx.2⟩

/-- A leading part no longer than the left half of a concatenation leads the
left half itself. -/
theorem LStarts_mono_len {p A B : List Char} (h : LStarts p (A ++ B))
    (hlen : p.length ≤ A.length) : LStarts p A := by
  obtain ⟨t, ht⟩ := h
  rcases List.append_eq_append_iff.mp ht with ⟨a1, ha1, ha2⟩ | ⟨c1, hc1, hc2⟩
  · -- p = A ++ a1
    have ha0 : a1 = [] := by
      have hl := congrArg List.length ha1
      simp only [List.length_append] at hl
      exact List.length_eq_zero.mp (by omega)
    subst ha0
    exact ⟨[], by simp [ha1]⟩
  · -- A = p ++ c1
    exact ⟨c1, hc1⟩

/-- A trailing part no longer than the right half of a concatenation ends the
right half itself. -/
theorem LEnds_mono_len {p A B : List Char} (h : LEnds p (A ++ B))
    (hlen : p.length ≤ B.length) : LEnds p B := by
  obtain ⟨t, ht⟩ := h
  rcases List.append_eq_append_iff.mp ht with ⟨a1, ha1, ha2⟩ | ⟨c1, hc1, hc2⟩
  · -- t = A ++ a1, B = a1 ++ p
    exact ⟨a1, ha2⟩
  · -- A = t ++ c1, p = c1 ++ B
    have hc0 : c1 = [] := by
      have hl := congrArg List.length hc2
      simp only [List.length_append] at hl
      exact List.length_eq_zero.mp (by omega)
    subst hc0
    simp only [List.nil_append] at hc2
    exact ⟨[], by simp [hc2]⟩

/-- Both factors of a pattern split are its `take`/`drop` at the split
point. -/
theorem factor_take_drop {p p1 p2 : List Char} (h : p = p1 ++ p2) :
    p1 = p.take p1.length ∧ p2 = p.drop p1.length := by
  subst h
  exact ⟨(List.take_left _ _).symm, (List.drop_left _ _).symm⟩

theorem endsWithL_iff (p s : List Char) : endsWithL p s = true ↔ LEnds p s := by
  unfold endsWithL
  rw [startsWithL_iff]
  constructor
  · rintro ⟨t, ht⟩
    refine ⟨t.reverse, ?_⟩
    have := congrArg List.reverse ht
    simpa using this
  · rintro ⟨t, rfl⟩
    exact ⟨t.reverse, by simp⟩

/-- The head of a list led by a non-empty part is that part's head. -/
theorem LStarts.head_mem {p s : List Char} (h : LStarts p s) (hne : p ≠ [])
    {c : Char} (hc : s.head? = some c) : c ∈ p := by
  obtain ⟨t, rfl⟩ := h
  cases p with
  | nil => exact absurd rfl hne
  | cons d ds =>
    simp only [List.cons_append, List.head?_cons, Option.some_inj] at hc
    simp [hc]

/-- Key combinatorial fact behind idempotence of the URL rewrite: gluing two
`"/problem/"`-free pieces with the literal `"/submit/"` cannot create an
occurrence of `"/problem/"`, provided the left piece does not end in
`"/problem"` and the right piece does not start with `"problem/"`. -/
theorem no_prob_in_submit_join {A C : List Char}
    (hA : ¬ Occ probL A) (hC : ¬ Occ probL C)
    (hA8 : ¬ LEnds (sl "/problem") A) (hC8 : ¬ LStarts (sl "problem/") C) :
    ¬ Occ probL (A ++ (subL ++ C)) := by
  intro h
  rcases occ_append h with hA' | h2 | ⟨p1, p2, hp, h1, h2', hE, hS⟩
  · exact hA hA'
  · rcases occ_append h2 with hM | hC' | ⟨q1, q2, hq, hq1, hq2, hqE, hqS⟩
    · exact absurd hM.length_le (by decide)
    · exact hC hC'
    · obtain ⟨hq1td, hq2td⟩ := factor_take_drop hq
      have hk1 : 1 ≤ q1.length := List.length_pos.mpr hq1
      have hsub8 : subL.length = 8 := by decide
      have hk8 : q1.length ≤ subL.length := by
        obtain ⟨t, ht⟩ := hqE
        have hlq := congrArg List.length ht
        simp only [List.length_append] at hlq
        omega
      have henum : ∀ k, k < 9 → 1 ≤ k → endsWithL (probL.take k) subL = true → k = 1 := by
        decide
      have hqE' : endsWithL q1 subL = true := (endsWithL_iff _ _).mpr hqE
      have hk : q1.length = 1 := by
        refine henum q1.length (by omega) hk1 ?_
        rw [← hq1td]
        exact hqE'
      have hq2eq : q2 = sl "problem/" := by
        rw [hq2td, hk]
        decide
      exact hC8 (hq2eq ▸ hqS)
  · obtain ⟨hp1td, hp2td⟩ := factor_take_drop hp
    have hlen9 : probL.length = 9 := by decide
    have hptotal : p1.length + p2.length = 9 := by
      have := congrArg List.length hp
      simp only [List.length_append] at this
      omega
    have hk1 : 1 ≤ p1.length := List.length_pos.mpr h1
    have hk2 : 1 ≤ p2.length := List.length_pos.mpr h2'
    have hS' : LStarts p2 subL := by
      refine LStarts_mono_len hS ?_
      have : subL.length = 8 := by decide
      omega
    have henum : ∀ k, k < 9 → 1 ≤ k → startsWithL (probL.drop k) subL = true → k = 8 := by
      decide
    have hS'' : startsWithL p2 subL = true := (startsWithL_iff _ _).mpr hS'
    have hk : p1.length = 8 := by
      refine henum p1.length (by omega) hk1 ?_
      rw [← hp2td]
      exact hS''
    have hp1eq : p1 = sl "/problem" := by
      rw [hp1td, hk]
      decide
    exact hA8 (hp1eq ▸ hE)

theorem occ_of_countOcc_pos {pat s : List Char} (h : 1 ≤ countOcc pat s) : Occ pat s := by
  induction s with
  | nil =>
    unfold countOcc at h
    by_cases hp : startsWithL pat [] = true
    · obtain ⟨t, ht⟩ := (startsWithL_iff _ _).mp hp
      exact ⟨[], t, by simpa using ht⟩
    · rw [if_neg hp] at h
      omega
  | cons c t ih =>
    by_cases hp : startsWithL pat (c :: t) = true
    · obtain ⟨r, hr⟩ := (startsWithL_iff _ _).mp hp
      exact ⟨[], r, by simpa using hr⟩
    · have hcons : countOcc pat (c :: t) =
          (if startsWithL pat (c :: t) = true then 1 else 0) + countOcc pat t := rfl
      rw [hcons, if_neg hp] at h
      obtain ⟨x, y, hxy⟩ := ih (by omega)
      exact ⟨c :: x, y, by simp [hxy]⟩

/-- An occurrence count of at least two yields occurrences at two distinct
offsets. -/
theorem countOcc_ge_two_exists {pat s : List Char} (h : 2 ≤ countOcc pat s) :
    ∃ x y x' y', s = x ++ pat ++ y ∧ s = x' ++ pat ++ y' ∧ x.length < x'.length := by
  induction s with
  | nil =>
    unfold countOcc at h
    split at h <;> omega
  | cons c t ih =>
    have hcons : countOcc pat (c :: t) =
        (if startsWithL pat (c :: t) = true then 1 else 0) + countOcc pat t := rfl
    rw [hcons] at h
    by_cases hp : startsWithL pat (c :: t) = true
    · rw [if_pos hp] at h
      obtain ⟨r, hr⟩ := (startsWithL_iff _ _).mp hp
      obtain ⟨x0, y0, hxy0⟩ := @occ_of_countOcc_pos pat t (by omega)
      refine ⟨[], r, c :: x0, y0, by simpa using hr, by simp [hxy0], by simp⟩
    · rw [if_neg hp] at h
      obtain ⟨x, y, x', y', h1, h2, hlt⟩ := ih (by omega)
      exact ⟨c :: x, y, c :: x', y', by simp [h1], by simp [h2], by simpa using hlt⟩

/-- Proper self-overlap offsets of `"/problem/"`: the only non-trivial border
is the single character `/`, i.e. offset `8`. -/
theorem prob_overlap_enum :
    ∀ k, k < 9 → 1 ≤ k → probL.drop k = probL.take (9 - k) → k = 8 := by decide

/-- Occurrences of `"/problem/"` in `A ++ "/problem/" ++ B` are unique when
`A` and `B` carry no occurrence, `A` does not end in `"/problem"` and `B`
does not start with `"problem/"`. -/
theorem sep_countOcc_le_one {A B : List Char}
    (hA : ¬ Occ probL A) (hB : ¬ Occ probL B)
    (hA8 : ¬ LEnds (sl "/problem") A) (hB8 : ¬ LStarts (sl "problem/") B) :
    countOcc probL (A ++ probL ++ B) ≤ 1 := by
  by_contra hge
  have h2 : 2 ≤ countOcc probL (A ++ probL ++ B) := by omega
  obtain ⟨u1, v1, u2, v2, hx1, hx2, hlt12⟩ := countOcc_ge_two_exists h2
  have hpos : ∀ x y, A ++ probL ++ B = x ++ probL ++ y → x.length = A.length := by
    intro x y hxy0
    have hxy : A ++ (probL ++ B) = x ++ (probL ++ y) := by
      rw [← List.append_assoc, ← List.append_assoc]
      exact hxy0
    rcases Nat.lt_trichotomy x.length A.length with hlt' | heq | hgt
    · exfalso
      rcases List.append_eq_append_iff.mp hxy with ⟨a1, ha1, ha2⟩ | ⟨c1, hc1, hc2⟩
      · -- x = A ++ a1 : impossible, x is shorter than A
        have hl := congrArg List.length ha1
        simp only [List.length_append] at hl
        omega
      · -- A = x ++ c1, probL ++ y = c1 ++ (probL ++ B)
        have hc1ne : c1 ≠ [] := by
          intro h0
          subst h0
          have hl := congrArg List.length hc1
          simp only [List.length_append, List.length_nil] at hl
          omega
        rcases List.append_eq_append_iff.mp hc2 with ⟨w, hw1, hw2⟩ | ⟨w, hw1, hw2⟩
        · -- c1 = probL ++ w : then A contains "/problem/"
          exact hA ⟨x, w, by rw [hc1, hw1, ← List.append_assoc]⟩
        · -- probL = c1 ++ w, probL ++ B = w ++ y
          by_cases hwnil : w = []
          · subst hwnil
            simp only [List.append_nil] at hw1
            exact hA ⟨x, [], by rw [hc1, ← hw1]; simp⟩
          · obtain ⟨ht, hd⟩ := factor_take_drop hw1
            have hlen9 : probL.length = 9 := by decide
            have hlenc : c1.length + w.length = 9 := by
              have hl := congrArg List.length hw1
              simp only [List.length_append] at hl
              omega
            have hc1pos : 1 ≤ c1.length := List.length_pos.mpr hc1ne
            have hwpos : 1 ≤ w.length := List.length_pos.mpr hwnil
            have hwlen : w.length ≤ probL.length := by omega
            have hwpre : LStarts w probL := LStarts_mono_len (B := B) ⟨y, hw2⟩ hwlen
            have hwtake : w = probL.take w.length := by
              obtain ⟨t, ht'⟩ := hwpre
              exact (factor_take_drop ht').1
            have hklt : c1.length < 9 := by omega
            have hk : c1.length = 8 := by
              refine prob_overlap_enum c1.length hklt hc1pos ?_
              rw [← hd, hwtake]
              have hlw : w.length = 9 - c1.length := by omega
              rw [hlw]
            have hc1eq : c1 = sl "/problem" := by
              rw [ht, hk]
              decide
            exact hA8 ⟨x, by rw [hc1, hc1eq]⟩
    · exact heq
    · exfalso
      rcases List.append_eq_append_iff.mp hxy with ⟨a1, ha1, ha2⟩ | ⟨c1, hc1, hc2⟩
      · -- x = A ++ a1, probL ++ B = a1 ++ (probL ++ y)
        have ha1ne : a1 ≠ [] := by
          intro h0
          subst h0
          have hl := congrArg List.length ha1
          simp only [List.length_append, List.length_nil] at hl
          omega
        rcases List.append_eq_append_iff.mp ha2 with ⟨w, hw1, hw2⟩ | ⟨w, hw1, hw2⟩
        · -- a1 = probL ++ w : then B contains "/problem/"
          exact hB ⟨w, y, by rw [hw2, ← List.append_assoc]⟩
        · -- probL = a1 ++ w, probL ++ y = w ++ B
          by_cases hwnil : w = []
          · subst hwnil
            simp only [List.append_nil] at hw1
            refine hB ⟨[], y, ?_⟩
            simp only [List.nil_append]
            exact hw2.symm
          · obtain ⟨ht, hd⟩ := factor_take_drop hw1
            have hlen9 : probL.length = 9 := by decide
            have hlena : a1.length + w.length = 9 := by
              have hl := congrArg List.length hw1
              simp only [List.length_append] at hl
              omega
            have ha1pos : 1 ≤ a1.length := List.length_pos.mpr ha1ne
            have hwpos : 1 ≤ w.length := List.length_pos.mpr hwnil
            have hwlen : w.length ≤ probL.length := by omega
            have hwpre : LStarts w probL := LStarts_mono_len (B := y) ⟨B, hw2⟩ hwlen
            have hwtake : w = probL.take w.length := by
              obtain ⟨t, ht'⟩ := hwpre
              exact (factor_take_drop ht').1
            have hklt : a1.length < 9 := by omega
            have hk : a1.length = 8 := by
              refine prob_overlap_enum a1.length hklt ha1pos ?_
              rw [← hd, hwtake]
              have hlw : w.length = 9 - a1.length := by omega
              rw [hlw]
            have hweq : w = sl "/" := by
              rw [hwtake]
              have hlw : w.length = 1 := by omega
              rw [hlw]
              decide
            have hByp : B = sl "problem/" ++ y := by
              have hprob : probL = sl "/" ++ sl "problem/" := by decide
              rw [hweq] at hw2
              rw [hprob, List.append_assoc] at hw2
              exact ((List.append_right_inj (sl "/")).mp hw2).symm
            exact hB8 ⟨y, hByp⟩
      · -- A = x ++ c1 : impossible, x is longer than A
        have hl := congrArg List.length hc1
        simp only [List.length_append] at hl
        omega
  have e1 := hpos u1 v1 hx1
  have e2 := hpos u2 v2 hx2
  omega

/-- The exchange identity behind the self-overlap of `"/problem/"`. -/
theorem prob_regroup (Z : List Char) :
    sl "/problem" ++ (probL ++ Z) = probL ++ (sl "problem/" ++ Z) := by
  rw [← List.append_assoc, ← List.append_assoc]
  have h : sl "/problem" ++ probL = probL ++ sl "problem/" := by decide
  rw [h]

/-- From a unique-occurrence decomposition, the separating properties of the
two sides follow. -/
theorem sep_facts {u A B : List Char} (hu : u = A ++ probL ++ B)
    (hcount : countOcc probL u ≤ 1) :
    ¬ Occ probL A ∧ ¬ Occ probL B ∧
      ¬ LEnds (sl "/problem") A ∧ ¬ LStarts (sl "problem/") B := by
  have hlen9 : probL.length = 9 := by decide
  refine ⟨?_, ?_, ?_, ?_⟩
  · rintro ⟨p, q, hpq⟩
    have h1 : u = p ++ probL ++ (q ++ (probL ++ B)) := by
      rw [hu, hpq]
      simp [List.append_assoc]
    have hplen : p.length < A.length := by
      have hl := congrArg List.length hpq
      simp only [List.length_append] at hl
      omega
    have := countOcc_two h1 hu hplen
    omega
  · rintro ⟨p, q, hpq⟩
    have h2' : u = (A ++ probL ++ p) ++ probL ++ q := by
      rw [hu, hpq]
      simp [List.append_assoc]
    have hplen : A.length < (A ++ probL ++ p).length := by
      simp only [List.length_append]
      omega
    have := countOcc_two hu h2' hplen
    omega
  · rintro ⟨t, hT⟩
    have h1 : u = t ++ probL ++ (sl "problem/" ++ B) := by
      rw [hu, hT]
      simp only [List.append_assoc]
      rw [prob_regroup]
    have htlen : t.length < A.length := by
      have hl := congrArg List.length hT
      simp only [List.length_append] at hl
      have : (sl "/problem").length = 8 := by decide
      omega
    have := countOcc_two h1 hu htlen
    omega
  · rintro ⟨t, hT⟩
    have h2' : u = (A ++ sl "/problem") ++ probL ++ t := by
      rw [hu, hT]
      simp only [List.append_assoc]
      rw [← prob_regroup]
    have hlen : A.length < (A ++ sl "/problem").length := by
      simp only [List.length_append]
      have : (sl "/problem").length = 8 := by decide
      omega
    have := countOcc_two hu h2' hlen
    omega

/-- Under unique occurrence, `QString::split("/problem/")` yields exactly the
two flanking pieces. -/
theorem splitSub_pair {u A B : List Char} (hu : u = A ++ probL ++ B)
    (hcount : countOcc probL u ≤ 1) : splitSub probL u = [A, B] := by
  obtain ⟨hnA, hnB, h8A, h8B⟩ := sep_facts hu hcount
  obtain ⟨a, b, hab⟩ := splitFirst_isSome_of_occ (⟨A, B, hu⟩ : Occ probL u)
  have hspec := splitFirst_spec hab
  obtain ⟨hxa, hyb⟩ := occ_unique_of_countOcc hcount hspec hu
  have hprobne : probL ≠ [] := by decide
  rw [splitSub_of_some hprobne hab, hxa, hyb]
  rw [splitSub_of_none (splitFirst_eq_none_of_not_occ hnB)]

/-- A span whose right part of the pattern leads `B` is impossible when every
pattern character fails a class satisfied by the head of `B`. -/
theorem span_kill_head {p p1 p2 B : List Char} (hp : p = p1 ++ p2) (h2 : p2 ≠ [])
    (hS : LStarts p2 B) {P : Char → Bool} (hall : ∀ c ∈ p, P c = false)
    {c : Char} (hcB : B.head? = some c) (hcP : P c = true) : False := by
  have hc : c ∈ p2 := hS.head_mem h2 hcB
  have : P c = false := hall c (by rw [hp]; exact List.mem_append_right _ hc)
  rw [this] at hcP
  cases hcP

/-- A span whose left part of the pattern ends `A` is impossible when the
pattern's first character fails the class satisfied by all of `A`. -/
theorem span_kill_left {p p1 p2 A : List Char} (hp : p = p1 ++ p2) (h1 : p1 ≠ [])
    (hE : LEnds p1 A) {P : Char → Bool} (hall : ∀ c ∈ A, P c = true)
    {c : Char} (hc : p.head? = some c) (hcP : P c = false) : False := by
  have hcp1 : c ∈ p1 := head_mem_left_factor hp h1 hc
  have := hall c (hE.mem_of_mem_right hcp1)
  rw [this] at hcP
  cases hcP

/-- A span whose right part of the pattern leads `B` is impossible when the
pattern's last character fails the class satisfied by all of `B`. -/
theorem span_kill_right_last {p p1 p2 B : List Char} (hp : p = p1 ++ p2) (h2 : p2 ≠ [])
    (hS : LStarts p2 B) {P : Char → Bool} (hall : ∀ c ∈ B, P c = true)
    {c : Char} (hc : p.getLast? = some c) (hcP : P c = false) : False := by
  have hcp2 : c ∈ p2 := last_mem_right_factor hp h2 hc
  have := hall c (hS.mem_of_mem_left hcp2)
  rw [this] at hcP
  cases hcP

/-- The URL rewrite leaves any string without `"/problem/"` unchanged: all
four branch guards of the source fail. -/
theorem rewrite_fixes_of_no_prob {r : List Char} (h : ¬ Occ probL r) :
    rewriteUrl r = r := by
  have hP : hasSub probL r = false := (hasSub_eq_false_iff _ _).mpr h
  have hPs : hasSub psL r = false := by
    refine (hasSub_eq_false_iff _ _).mpr (fun hps => h ?_)
    obtain ⟨x, y, hxy⟩ := hps
    have hsplit : psL = sl "/problemset" ++ probL := by decide
    exact ⟨x ++ sl "/problemset", y, by rw [hxy, hsplit]; simp [List.append_assoc]⟩
  unfold rewriteUrl
  rw [hP, hPs]
  simp

/-- Evaluation of the split-based rewrite under a unique occurrence. -/
theorem splitTransform_eval {u A B : List Char} (hu : u = A ++ probL ++ B)
    (hcount : countOcc probL u ≤ 1) :
    splitTransform u = A ++ subL ++ truncIdx B := by
  unfold splitTransform
  rw [splitSub_pair hu hcount]
  simp [List.getD]

/-- The truncated problem index is a leading part of the post-split rest. -/
theorem truncIdx_leads (b : List Char) : ∃ r, b = truncIdx b ++ r := by
  refine ⟨(b.takeWhile (fun c => c != '?')).dropWhile (fun c => c != '#') ++
    b.dropWhile (fun c => c != '?'), ?_⟩
  unfold truncIdx
  rw [← List.append_assoc, takeWhile_append_dropWhile_eq, takeWhile_append_dropWhile_eq]

/-- The output of the split-based rewrite contains no `"/problem/"` when the
input contained exactly one. -/
theorem splitTransform_no_prob {u : List Char} (hocc : Occ probL u)
    (hcount : countOcc probL u ≤ 1) : ¬ Occ probL (splitTransform u) := by
  obtain ⟨A, B, hu⟩ := hocc
  obtain ⟨hnA, hnB, h8A, h8B⟩ := sep_facts hu hcount
  rw [splitTransform_eval hu hcount]
  obtain ⟨r, hBr⟩ := truncIdx_leads B
  have hnC : ¬ Occ probL (truncIdx B) := by
    rintro ⟨x, y, hxy⟩
    exact hnB ⟨x, y ++ r, by rw [hBr, hxy]; simp [List.append_assoc]⟩
  have h8C : ¬ LStarts (sl "problem/") (truncIdx B) := by
    rintro ⟨t, hT⟩
    exact h8B ⟨t ++ r, by rw [hBr, hT, List.append_assoc]⟩
  have hmain := no_prob_in_submit_join hnA hnC h8A h8C
  intro hx
  rw [List.append_assoc] at hx
  exact hmain hx

/-- Captures of a successful problemset-submit regex match: a non-empty digit
run and a non-empty alphanumeric run. -/
theorem matchPsSubmit_caps {s cid pidx : List Char}
    (h : matchPsSubmit s = some (cid, pidx)) :
    (cid ≠ [] ∧ ∀ c ∈ cid, Char.isDigit c = true) ∧
      pidx ≠ [] ∧ ∀ c ∈ pidx, Char.isAlphanum c = true := by
  unfold matchPsSubmit at h
  cases h1 : stripLit psL s with
  | none => rw [h1] at h; cases h
  | some s1 =>
    rw [h1, Option.some_bind] at h
    simp only at h
    by_cases hd : (s1.takeWhile Char.isDigit).isEmpty = true
    · rw [if_pos hd] at h; cases h
    · rw [if_neg hd] at h
      cases h2 : stripLit (sl "/") (s1.dropWhile Char.isDigit) with
      | none => rw [h2] at h; cases h
      | some s2 =>
        rw [h2, Option.some_bind] at h
        by_cases hx : (s2.takeWhile Char.isAlphanum).isEmpty = true
        · rw [if_pos hx] at h; cases h
        · rw [if_neg hx] at h
          injection h with h'
          injection h' with hcid hpidx
          subst hcid; subst hpidx
          refine ⟨⟨?_, fun c hc => mem_takeWhile_class hc⟩,
            ?_, fun c hc => mem_takeWhile_class hc⟩
          · intro h0
            rw [h0] at hd
            simp at hd
          · intro h0
            rw [h0] at hx
            simp at hx

/-- The canonical submit URL built by the problemset branch contains no
`"/problem/"`. -/
theorem noProb_canonical {n X : List Char} (hn : n ≠ []) (hnd : ∀ c ∈ n, Char.isDigit c = true)
    (hXa : ∀ c ∈ X, Char.isAlphanum c = true) :
    ¬ Occ probL (sl "https://codeforces.com/contest/" ++ (n ++ (sl "/submit/" ++ X))) := by
  have hheadP : probL.head? = some '/' := by decide
  have hlastP : probL.getLast? = some '/' := by decide
  have hPnodigit : ∀ c ∈ probL, Char.isDigit c = false := by decide
  have hslashD : Char.isDigit '/' = false := by decide
  have hslashA : Char.isAlphanum '/' = false := by decide
  have hslashP : ('/' : Char) ∈ probL := by decide
  intro h
  rcases occ_append h with h1 | h1 | ⟨p1, p2, hp, hp1, hp2, hE, hS⟩
  · -- inside the literal head
    have : hasSub probL (sl "https://codeforces.com/contest/") = false := by decide
    exact absurd ((hasSub_iff _ _).mpr h1) (by rw [this]; simp)
  · rcases occ_append h1 with h2 | h2 | ⟨p1, p2, hp, hp1, hp2, hE, hS⟩
    · -- inside the digits n
      exact not_occ_of_class hnd hslashP (by simp [hslashD]) h2
    · rcases occ_append h2 with h3 | h3 | ⟨q1, q2, hq, hq1, hq2, hqE, hqS⟩
      · -- inside "/submit/" : too short
        exact absurd h3.length_le (by decide)
      · -- inside the alphanumeric problem index
        exact not_occ_of_class hXa hslashP (by simp [hslashA]) h3
      · -- spanning "/submit/" and the index: the last character of the
        -- pattern would have to be an alphanumeric character of X
        exact span_kill_right_last hq hq2 hqS hXa hlastP hslashA
    · -- spanning n and the rest: the pattern head would be a digit
      exact span_kill_left hp hp1 hE hnd hheadP hslashD
  · -- spanning the literal head and the rest: the head of the rest is a
    -- digit of n but every pattern character is a non-digit
    cases n with
    | nil => exact absurd rfl hn
    | cons d ds =>
      refine span_kill_head hp hp2 hS hPnodigit (c := d) rfl ?_
      exact hnd d (by simp)

/-- C9 (amended): applying the URL rewrite twice equals applying it once
for every URL in which the separator `"/problem/"` occurs at most once;
URLs with a repeated separator defeat the `QString::split`-based rewrite
and break idempotence. -/
theorem rewriteUrl_idem (u : List Char) (h : countOcc probL u ≤ 1) :
    rewriteUrl (rewriteUrl u) = rewriteUrl u := by
  by_cases hocc : Occ probL u
  · have hsubP : hasSub probL u = true := (hasSub_iff _ _).mpr hocc
    by_cases hc : hasSub contestL u = true
    · have hr : rewriteUrl u = splitTransform u := by
        unfold rewriteUrl
        rw [hc, hsubP]
        simp
      rw [hr]
      exact rewrite_fixes_of_no_prob (splitTransform_no_prob hocc h)
    · have hc' : hasSub contestL u = false := by simpa using hc
      by_cases hg : hasSub gymL u = true
      · have hr : rewriteUrl u = splitTransform u := by
          unfold rewriteUrl
          rw [hc', hg, hsubP]
          simp
        rw [hr]
        exact rewrite_fixes_of_no_prob (splitTransform_no_prob hocc h)
      · have hg' : hasSub gymL u = false := by simpa using hg
        by_cases hps : hasSub psL u = true
        · cases hm : scanFirst matchPsSubmit u with
          | none =>
            have hr : rewriteUrl u = u := by
              unfold rewriteUrl
              rw [hc', hg', hps, hm]
              simp
            rw [hr]
            exact hr
          | some r =>
            obtain ⟨cid, pidx⟩ := r
            have hr : rewriteUrl u =
                sl "https://codeforces.com/contest/" ++ cid ++ sl "/submit/" ++ pidx := by
              unfold rewriteUrl
              rw [hc', hg', hps, hm]
              simp
            obtain ⟨s0, hs0, hm0⟩ := scanFirst_some hm
            obtain ⟨⟨hcne, hcd⟩, hpne, hpa⟩ := matchPsSubmit_caps hm0
            have hno := noProb_canonical hcne hcd hpa
            rw [hr]
            refine rewrite_fixes_of_no_prob ?_
            intro hx
            apply hno
            rw [List.append_assoc, List.append_assoc] at hx
            exact hx
        · have hps' : hasSub psL u = false := by simpa using hps
          by_cases hgr : hasSub groupL u = true
          · have hr : rewriteUrl u = splitTransform u := by
              unfold rewriteUrl
              rw [hc', hg', hps', hgr, hsubP]
              simp
            rw [hr]
            exact rewrite_fixes_of_no_prob (splitTransform_no_prob hocc h)
          · have hgr' : hasSub groupL u = false := by simpa using hgr
            have hr : rewriteUrl u = u := by
              unfold rewriteUrl
              rw [hc', hg', hps', hgr']
              simp
            rw [hr]
            exact hr
  · have hr := rewrite_fixes_of_no_prob hocc
    rw [hr]
    exact hr

/-- A list led by a character has a positive count of that character. -/
theorem count_pos_of_head {s : List Char} {c : Char} (h : s.head? = some c) :
    1 ≤ s.count c := by
  cases s with
  | nil => cases h
  | cons d t =>
    simp only [List.head?_cons, Option.some_inj] at h
    subst h
    simp [List.count_cons_self]

/-- A class bound on the members forces a zero count of any character outside
the class. -/
theorem count_eq_zero_of_class {s : List Char} {P : Char → Bool}
    (hs : ∀ c ∈ s, P c = true) {a : Char} (ha : P a = false) : s.count a = 0 := by
  rw [List.count_eq_zero]
  intro hmem
  rw [hs a hmem] at ha
  cases ha

/-- Two suffixes of the same list that start with a character occurring
exactly once in it coincide. -/
theorem suffix_head_unique {u s1 s2 : List Char} {c : Char}
    (h1 : s1 <:+ u) (h2 : s2 <:+ u) (hh1 : s1.head? = some c) (hh2 : s2.head? = some c)
    (hcount : u.count c = 1) : s1 = s2 := by
  obtain ⟨a, ha⟩ := h1
  obtain ⟨b, hb⟩ := h2
  have hab : a ++ s1 = b ++ s2 := by rw [ha, hb]
  have hc1 : 1 ≤ s1.count c := count_pos_of_head hh1
  have hc2 : 1 ≤ s2.count c := count_pos_of_head hh2
  have hcu : u.count c = a.count c + s1.count c := by
    rw [← ha, List.count_append]
  rcases List.append_eq_append_iff.mp hab with ⟨w, hw1, hw2⟩ | ⟨w, hw1, hw2⟩
  · -- b = a ++ w, s1 = w ++ s2
    cases w with
    | nil => simpa using hw2
    | cons d ds =>
      exfalso
      have hdh : s1.head? = some d := by rw [hw2]; rfl
      rw [hh1] at hdh
      injection hdh with hd
      have hcw : 1 ≤ (d :: ds).count c := by
        rw [← hd]
        simp [List.count_cons_self]
      have : s1.count c = (d :: ds).count c + s2.count c := by
        rw [hw2, List.count_append]
      omega
  · -- a = b ++ w, s2 = w ++ s1
    cases w with
    | nil => simpa using hw2.symm
    | cons d ds =>
      exfalso
      have hdh : s2.head? = some d := by rw [hw2]; rfl
      rw [hh2] at hdh
      injection hdh with hd
      have hcw : 1 ≤ (d :: ds).count c := by
        rw [← hd]
        simp [List.count_cons_self]
      have hs2 : s2.count c = (d :: ds).count c + s1.count c := by
        rw [hw2, List.count_append]
      have hcu2 : u.count c = b.count c + s2.count c := by
        rw [← hb, List.count_append]
      omega

/-- `scanFirst` returns the match of the longest matching suffix when all
strictly longer suffixes fail. -/
theorem scanFirst_first {α : Type} {m : List Char → Option α} {s s0 : List Char} {r : α}
    (hs0 : s0 <:+ s) (hm : m s0 = some r)
    (hlonger : ∀ s1, s1 <:+ s → s0.length < s1.length → m s1 = none) :
    scanFirst m s = some r := by
  induction s with
  | nil =>
    obtain rfl : s0 = [] := List.suffix_nil.mp hs0
    exact hm
  | cons c t ih =>
    unfold scanFirst
    rcases List.suffix_cons_iff.mp hs0 with rfl | hs0t
    · rw [hm]
    · have hlen : s0.length < (c :: t).length := by
        have := hs0t.length_le
        simp only [List.length_cons]
        omega
      rw [hlonger (c :: t) (List.suffix_refl _) hlen]
      exact ih hs0t (fun s1 hs1 hl => hlonger s1 (hs1.trans (List.suffix_cons c t)) hl)

/-- The last element of a list with a given non-empty trailing part. -/
theorem LEnds_getLast {p s : List Char} (h : LEnds p s) (hp : p ≠ []) :
    s.getLast? = p.getLast? := by
  obtain ⟨t, rfl⟩ := h
  exact List.getLast?_append_of_ne_nil _ hp

/-- An occurrence in a cons either starts at the head or lies in the tail. -/
theorem occ_cons {p : List Char} {c : Char} {t : List Char} (h : Occ p (c :: t)) :
    LStarts p (c :: t) ∨ Occ p t := by
  obtain ⟨x, y, hxy⟩ := h
  cases x with
  | nil => exact Or.inl ⟨y, by simpa using hxy⟩
  | cons d ds =>
    injection hxy with h1 h2
    exact Or.inr ⟨ds, y, h2⟩

/-- Among suffixes of a common list, the shorter is a suffix of the longer. -/
theorem suffix_of_suffix_len {s t u : List Char} (h1 : LEnds s u) (h2 : LEnds t u)
    (hl : s.length ≤ t.length) : LEnds s t := by
  obtain ⟨a, ha⟩ := h1
  obtain ⟨b, hb⟩ := h2
  have hab : a ++ s = b ++ t := by rw [← ha, ← hb]
  rcases List.append_eq_append_iff.mp hab with ⟨w, hw1, hw2⟩ | ⟨w, hw1, hw2⟩
  · -- b = a ++ w, s = w ++ t
    have hw0 : w = [] := by
      have hlw := congrArg List.length hw2
      simp only [List.length_append] at hlw
      exact List.length_eq_zero.mp (by omega)
    subst hw0
    simp only [List.nil_append] at hw2
    exact ⟨[], by simp [hw2]⟩
  · -- a = b ++ w, t = w ++ s
    exact ⟨w, hw2⟩

/-- Alphanumeric strings are unaffected by the query/fragment truncation. -/
theorem truncIdx_of_alnum {X : List Char} (hX : ∀ c ∈ X, Char.isAlphanum c = true) :
    truncIdx X = X := by
  unfold truncIdx
  have h1 : ∀ c ∈ X, (c != '?') = true := by
    intro c hc
    have := hX c hc
    by_cases hq : c = '?'
    · subst hq; cases this
    · simp [hq]
  have h2 : ∀ c ∈ X, (c != '#') = true := by
    intro c hc
    have := hX c hc
    by_cases hq : c = '#'
    · subst hq; cases this
    · simp [hq]
  rw [takeWhile_eq_self h1, takeWhile_eq_self h2]

/-- Non-empty lists are not `isEmpty`. -/
theorem isEmpty_false_of_ne_nil {s : List Char} (h : s ≠ []) : s.isEmpty = false := by
  cases s with
  | nil => exact absurd rfl h
  | cons c t => rfl

theorem orElse_none_eval {α : Type} (f : Unit → Option α) : Option.orElse none f = f () := rfl

theorem orElse_some_eval {α : Type} (a : α) (f : Unit → Option α) :
    Option.orElse (some a) f = some a := rfl

/-- Evaluation of the shared digits-problem-alphanumeric tail. -/
theorem digitProbTail_eval {n X : List Char} (hn : n ≠ [])
    (hnd : ∀ c ∈ n, Char.isDigit c = true) (hX : X ≠ [])
    (hXa : ∀ c ∈ X, Char.isAlphanum c = true) :
    digitProbTail (n ++ (probL ++ X)) = some (n, X) := by
  unfold digitProbTail
  simp only
  have hsplit : n ++ (probL ++ X) = n ++ ('/' :: (sl "problem/" ++ X)) := rfl
  rw [hsplit, takeWhile_append_stop hnd (by decide), dropWhile_append_stop hnd (by decide)]
  rw [isEmpty_false_of_ne_nil hn]
  simp only [Bool.false_eq_true, if_false]
  have hback : ('/' :: (sl "problem/" ++ X)) = probL ++ X := rfl
  rw [hback, stripLit_self, Option.some_bind]
  rw [takeWhile_eq_self hXa, isEmpty_false_of_ne_nil hX]
  simp

/-- Evaluation of the contest regex tail at its intended position in a
well-formed contest URL. -/
theorem matchContest_eval {n X : List Char} (hn : n ≠ [])
    (hnd : ∀ c ∈ n, Char.isDigit c = true) (hX : X ≠ [])
    (hXa : ∀ c ∈ X, Char.isAlphanum c = true) :
    matchContest (sl "://codeforces.com/contest/" ++ (n ++ (probL ++ X))) = some (n, X) := by
  have hL0 : sl "://codeforces.com/contest/" = sl "://codeforces.com/" ++ sl "contest/" := by
    decide
  rw [hL0, List.append_assoc]
  unfold matchContest
  rw [stripLit_self, Option.some_bind]
  have hgym : stripLit (sl "gym/") (sl "contest/" ++ (n ++ (probL ++ X))) = none := by
    apply stripLit_is_none
    rintro ⟨t, ht⟩
    have h1 : (sl "contest/" ++ (n ++ (probL ++ X))).head? = some 'c' := rfl
    rw [ht] at h1
    have h2 : (sl "gym/" ++ t).head? = some 'g' := rfl
    rw [h2] at h1
    exact absurd h1 (by decide)
  rw [hgym, orElse_none_eval, stripLit_self, Option.some_bind]
  exact digitProbTail_eval hn hnd hX hXa

theorem matchContest_head {s : List Char} {r : List Char × List Char}
    (h : matchContest s = some r) : s.head? = some ':' := by
  unfold matchContest at h
  cases h1 : stripLit (sl "://codeforces.com/") s with
  | none => rw [h1] at h; cases h
  | some s1 =>
    rw [stripLit_eq_some h1]
    rfl

/-- C4: for a well-formed contest URL `scheme://codeforces.com/contest/{n}/problem/{X}`
with an alphanumeric scheme, a non-empty run of digits `n` and a non-empty
alphanumeric token `X`, `parseCfUrl` extracts `(n, X)` and the rewrite turns
`/problem/{X}` into `/submit/{X}`. -/
theorem contest_url_parse_rewrite (scheme n X : List Char)
    (hs : ∀ c ∈ scheme, Char.isAlphanum c = true)
    (hn : n ≠ []) (hnd : ∀ c ∈ n, Char.isDigit c = true)
    (hX : X ≠ []) (hXa : ∀ c ∈ X, Char.isAlphanum c = true) :
    parseCfUrl (scheme ++ sl "://codeforces.com/contest/" ++ n ++ sl "/problem/" ++ X) =
      some (n, X) ∧
    rewriteUrl (scheme ++ sl "://codeforces.com/contest/" ++ n ++ sl "/problem/" ++ X) =
      scheme ++ sl "://codeforces.com/contest/" ++ n ++ sl "/submit/" ++ X := by
  have hprobL : sl "/problem/" = probL := rfl
  have hsubL : sl "/submit/" = subL := rfl
  rw [hprobL, hsubL]
  have hheadP : probL.head? = some '/' := by decide
  have hlastP : probL.getLast? = some '/' := by decide
  have hslashP : ('/' : Char) ∈ probL := by decide
  -- the flanking pieces of the unique "/problem/" occurrence
  have hnA : ¬ Occ probL ((scheme ++ sl "://codeforces.com/contest/") ++ n) := by
    intro hA
    rw [List.append_assoc] at hA
    rcases occ_append hA with h1 | h1 | ⟨p1, p2, hp, hp1, hp2, hE, hS⟩
    · exact not_occ_of_class hs hslashP (by decide) h1
    · rcases occ_append h1 with h2 | h2 | ⟨q1, q2, hq, hq1, hq2, hqE, hqS⟩
      · have hdec : hasSub probL (sl "://codeforces.com/contest/") = false := by decide
        exact absurd ((hasSub_iff _ _).mpr h2) (by rw [hdec]; simp)
      · exact not_occ_of_class hnd hslashP (by decide) h2
      · exact span_kill_right_last hq hq2 hqS hnd hlastP (by decide)
    · exact span_kill_left hp hp1 hE hs hheadP (by decide)
  have hnX : ¬ Occ probL X := not_occ_of_class hXa hslashP (by decide)
  have h8A : ¬ LEnds (sl "/problem") ((scheme ++ sl "://codeforces.com/contest/") ++ n) := by
    intro hE
    have h1 := LEnds_getLast hE (by decide)
    have h2 : ((scheme ++ sl "://codeforces.com/contest/") ++ n).getLast? = n.getLast? :=
      List.getLast?_append_of_ne_nil _ hn
    rw [h2] at h1
    have h3 : (sl "/problem").getLast? = some 'm' := by decide
    rw [h3] at h1
    have h4 : ('m' : Char) ∈ n := List.mem_of_mem_getLast? h1
    have := hnd 'm' h4
    exact absurd this (by decide)
  have h8X : ¬ LStarts (sl "problem/") X := by
    rintro hS
    have hsl : ('/' : Char) ∈ sl "problem/" := by decide
    have := hXa '/' (hS.mem_of_mem_left hsl)
    exact absurd this (by decide)
  have hcount : countOcc probL
      ((((scheme ++ sl "://codeforces.com/contest/") ++ n) ++ probL) ++ X) ≤ 1 := by
    have := sep_countOcc_le_one hnA hnX h8A h8X
    exact this
  constructor
  · -- parse
    have hcolon : ((((scheme ++ sl "://codeforces.com/contest/") ++ n) ++ probL) ++ X).count ':'
        = 1 := by
      simp only [List.count_append]
      rw [count_eq_zero_of_class hs (by decide), count_eq_zero_of_class hnd (by decide),
        count_eq_zero_of_class hXa (by decide)]
      have h1 : (sl "://codeforces.com/contest/").count ':' = 1 := by decide
      have h2 : probL.count ':' = 0 := by decide
      rw [h1, h2]
    have hs0 : (sl "://codeforces.com/contest/" ++ (n ++ (probL ++ X))) <:+
        ((((scheme ++ sl "://codeforces.com/contest/") ++ n) ++ probL) ++ X) :=
      ⟨scheme, by simp [List.append_assoc]⟩
    have hm0 : matchContest (sl "://codeforces.com/contest/" ++ (n ++ (probL ++ X))) =
        some (n, X) := matchContest_eval hn hnd hX hXa
    have hh0 : (sl "://codeforces.com/contest/" ++ (n ++ (probL ++ X))).head? = some ':' := rfl
    have hscan : scanLast matchContest
        ((((scheme ++ sl "://codeforces.com/contest/") ++ n) ++ probL) ++ X) = some (n, X) := by
      refine scanLast_unique hs0 hm0 (fun s1 hsuf hne => ?_)
      cases hm1 : matchContest s1 with
      | none => rfl
      | some r =>
        exact absurd (suffix_head_unique hsuf hs0 (matchContest_head hm1) hh0 hcolon) hne
    unfold parseCfUrl
    rw [hscan]
  · -- rewrite
    have hcond1 : hasSub contestL
        ((((scheme ++ sl "://codeforces.com/contest/") ++ n) ++ probL) ++ X) = true := by
      refine (hasSub_iff _ _).mpr ⟨scheme ++ sl "://codeforces.com", n ++ (probL ++ X), ?_⟩
      have hL : sl "://codeforces.com/contest/" = sl "://codeforces.com" ++ contestL := by
        decide
      rw [hL]
      simp [List.append_assoc]
    have hcond2 : hasSub probL
        ((((scheme ++ sl "://codeforces.com/contest/") ++ n) ++ probL) ++ X) = true :=
      (hasSub_iff _ _).mpr ⟨(scheme ++ sl "://codeforces.com/contest/") ++ n, X, rfl⟩
    have hrew : rewriteUrl ((((scheme ++ sl "://codeforces.com/contest/") ++ n) ++ probL) ++ X)
        = splitTransform ((((scheme ++ sl "://codeforces.com/contest/") ++ n) ++ probL) ++ X) := by
      unfold rewriteUrl
      rw [hcond1, hcond2]
      simp
    rw [hrew, splitTransform_eval rfl hcount, truncIdx_of_alnum hXa]

/-- No slash-headed, digit-free pattern whose tail holds a slash and which
does not occur in the problemset literal can occur anywhere in a well-formed
problemset URL.  Instantiated at `"/contest/"` and `"/gym/"` to show those
rewrite branches stay off. -/
theorem no_pat_in_ps_url {pat scheme n X : List Char}
    (hs : ∀ c ∈ scheme, Char.isAlphanum c = true)
    (hn : n ≠ []) (hnd : ∀ c ∈ n, Char.isDigit c = true)
    (hXa : ∀ c ∈ X, Char.isAlphanum c = true)
    (hhead : pat.head? = some '/')
    (htail : ('/' : Char) ∈ pat.tail)
    (hnd2 : ∀ c ∈ pat, Char.isDigit c = false)
    (hL2 : hasSub pat (sl "://codeforces.com/problemset/problem/") = false) :
    ¬ Occ pat (scheme ++ (sl "://codeforces.com/problemset/problem/" ++ (n ++ ('/' :: X)))) := by
  have hslash : ('/' : Char) ∈ pat := by
    cases pat with
    | nil => cases hhead
    | cons c cs =>
      simp only [List.head?_cons, Option.some_inj] at hhead
      rw [← hhead]
      simp
  intro h
  rcases occ_append h with h1 | h1 | ⟨p1, p2, hp, hp1, hp2, hE, hS⟩
  · exact not_occ_of_class hs hslash (by decide) h1
  · rcases occ_append h1 with h2 | h2 | ⟨p1, p2, hp, hp1, hp2, hE, hS⟩
    · exact absurd ((hasSub_iff _ _).mpr h2) (by rw [hL2]; simp)
    · rcases occ_append h2 with h3 | h3 | ⟨q1, q2, hq, hq1, hq2, hqE, hqS⟩
      · exact not_occ_of_class hnd hslash (by decide) h3
      · rcases occ_cons h3 with hls | hocc
        · obtain ⟨t, ht⟩ := hls
          cases pat with
          | nil => cases hhead
          | cons c cs =>
            simp only [List.head?_cons, Option.some_inj] at hhead
            simp only [List.tail_cons] at htail
            injection ht with h4 h5
            have hmem : ('/' : Char) ∈ X := by
              rw [h5]
              exact List.mem_append_left _ htail
            exact absurd (hXa '/' hmem) (by decide)
        · exact not_occ_of_class hXa hslash (by decide) hocc
      · exact span_kill_left hq hq1 hqE hnd hhead (by decide)
    · cases n with
      | nil => exact absurd rfl hn
      | cons d ds =>
        refine span_kill_head hp hp2 hS hnd2 (c := d) rfl ?_
        exact hnd d (by simp)
  · exact span_kill_left hp hp1 hE hs hhead (by decide)

/-- Evaluation of the problemset-submit regex at its intended position. -/
theorem matchPsSubmit_eval {n X : List Char} (hn : n ≠ [])
    (hnd : ∀ c ∈ n, Char.isDigit c = true) (hX : X ≠ [])
    (hXa : ∀ c ∈ X, Char.isAlphanum c = true) :
    matchPsSubmit (psL ++ (n ++ ('/' :: X))) = some (n, X) := by
  unfold matchPsSubmit
  rw [stripLit_self, Option.some_bind]
  simp only
  rw [takeWhile_append_stop hnd (by decide), dropWhile_append_stop hnd (by decide),
    isEmpty_false_of_ne_nil hn]
  simp only [Bool.false_eq_true, if_false]
  have h1 : ('/' :: X) = sl "/" ++ X := rfl
  rw [h1, stripLit_self, Option.some_bind]
  rw [takeWhile_eq_self hXa, isEmpty_false_of_ne_nil hX]
  simp

theorem matchPsSubmit_starts {s : List Char} {r : List Char × List Char}
    (h : matchPsSubmit s = some r) : LStarts psL s := by
  unfold matchPsSubmit at h
  cases h1 : stripLit psL s with
  | none => rw [h1] at h; cases h
  | some s1 => exact ⟨s1, stripLit_eq_some h1⟩

/-- No occurrence of the problemset literal can start inside the
`scheme://codeforces.com` head of a well-formed problemset URL. -/
theorem ps_occ_not_early {scheme a w : List Char}
    (hPw : scheme ++ sl "://codeforces.com" = a ++ w) (hwne : w ≠ [])
    (hfac : ∃ v, psL = w ++ v) : False := by
  have hT17 : (sl "://codeforces.com").length = 17 := by decide
  obtain ⟨v, hv⟩ := hfac
  by_cases hv0 : v = []
  · -- w is the whole of psL : the head would end in '/' instead of 'm'
    subst hv0
    simp only [List.append_nil] at hv
    have h1 : (scheme ++ sl "://codeforces.com").getLast? = (sl "://codeforces.com").getLast? :=
      List.getLast?_append_of_ne_nil _ (by decide)
    have h2 : (scheme ++ sl "://codeforces.com").getLast? = w.getLast? := by
      rw [hPw]
      exact List.getLast?_append_of_ne_nil _ hwne
    rw [h1, ← hv] at h2
    exact absurd h2 (by decide)
  · have hwE : LEnds w (scheme ++ sl "://codeforces.com") := ⟨a, hPw⟩
    by_cases hlen : w.length ≤ 17
    · have hwT : LEnds w (sl "://codeforces.com") :=
        LEnds_mono_len hwE (by rw [hT17]; exact hlen)
      have hwtake : w = psL.take w.length := (factor_take_drop hv).1
      have hk1 : 1 ≤ w.length := List.length_pos.mpr hwne
      have hk2 : w.length ≤ 17 := hlen
      have henum : ∀ k, k < 18 → 1 ≤ k →
          endsWithL (psL.take k) (sl "://codeforces.com") = true → False := by decide
      refine henum w.length (by omega) hk1 ?_
      rw [← hwtake]
      exact (endsWithL_iff _ _).mpr hwT
    · -- w longer than the host literal: it would contain the colon
      have hTE : LEnds (sl "://codeforces.com") (scheme ++ sl "://codeforces.com") := ⟨scheme, rfl⟩
      have hTw : LEnds (sl "://codeforces.com") w :=
        suffix_of_suffix_len hTE hwE (by rw [hT17]; omega)
      have hcolon : (':' : Char) ∈ w := hTw.mem_of_mem_right (by decide)
      have hcpsl : (':' : Char) ∈ psL := by
        rw [hv]
        exact List.mem_append_left _ hcolon
      exact absurd hcpsl (by decide)

theorem ps_not_in_host {scheme : List Char} (hs : ∀ c ∈ scheme, Char.isAlphanum c = true) :
    ¬ Occ psL (scheme ++ sl "://codeforces.com") := by
  intro h
  rcases occ_append h with h1 | h1 | ⟨p1, p2, hp, hp1, hp2, hE, hS⟩
  · exact not_occ_of_class hs (by decide : ('/' : Char) ∈ psL) (by decide) h1
  · have hdec : hasSub psL (sl "://codeforces.com") = false := by decide
    exact absurd ((hasSub_iff _ _).mpr h1) (by rw [hdec]; simp)
  · exact span_kill_left hp hp1 hE hs (by decide : psL.head? = some '/') (by decide)

/-- C5: a well-formed problemset URL is rewritten to the canonical contest
submit URL. -/
theorem problemset_url_rewrite (scheme n X : List Char)
    (hs : ∀ c ∈ scheme, Char.isAlphanum c = true)
    (hn : n ≠ []) (hnd : ∀ c ∈ n, Char.isDigit c = true)
    (hX : X ≠ []) (hXa : ∀ c ∈ X, Char.isAlphanum c = true) :
    rewriteUrl (scheme ++ sl "://codeforces.com/problemset/problem/" ++ n ++ sl "/" ++ X) =
      sl "https://codeforces.com/contest/" ++ n ++ sl "/submit/" ++ X := by
  have hflat : scheme ++ sl "://codeforces.com/problemset/problem/" ++ n ++ sl "/" ++ X =
      scheme ++ (sl "://codeforces.com/problemset/problem/" ++ (n ++ ('/' :: X))) := by
    simp only [List.append_assoc]
    rfl
  rw [hflat]
  have hL2split : sl "://codeforces.com/problemset/problem/" =
      sl "://codeforces.com" ++ psL := by decide
  have hnc : hasSub contestL
      (scheme ++ (sl "://codeforces.com/problemset/problem/" ++ (n ++ ('/' :: X)))) = false :=
    (hasSub_eq_false_iff _ _).mpr
      (@no_pat_in_ps_url contestL scheme n X hs hn hnd hXa (by decide) (by decide)
        (by decide) (by decide))
  have hng : hasSub gymL
      (scheme ++ (sl "://codeforces.com/problemset/problem/" ++ (n ++ ('/' :: X)))) = false :=
    (hasSub_eq_false_iff _ _).mpr
      (@no_pat_in_ps_url gymL scheme n X hs hn hnd hXa (by decide) (by decide)
        (by decide) (by decide))
  have hs0eq : scheme ++ (sl "://codeforces.com/problemset/problem/" ++ (n ++ ('/' :: X))) =
      (scheme ++ sl "://codeforces.com") ++ (psL ++ (n ++ ('/' :: X))) := by
    rw [hL2split]
    simp [List.append_assoc]
  have hps : hasSub psL
      (scheme ++ (sl "://codeforces.com/problemset/problem/" ++ (n ++ ('/' :: X)))) = true := by
    refine (hasSub_iff _ _).mpr ⟨scheme ++ sl "://codeforces.com", n ++ ('/' :: X), ?_⟩
    rw [hs0eq]
    simp [List.append_assoc]
  have hsuf : (psL ++ (n ++ ('/' :: X))) <:+
      (scheme ++ (sl "://codeforces.com/problemset/problem/" ++ (n ++ ('/' :: X)))) :=
    ⟨scheme ++ sl "://codeforces.com", hs0eq.symm⟩
  have hm0 := matchPsSubmit_eval hn hnd hX hXa
  have hscan : scanFirst matchPsSubmit
      (scheme ++ (sl "://codeforces.com/problemset/problem/" ++ (n ++ ('/' :: X)))) =
      some (n, X) := by
    refine scanFirst_first hsuf hm0 (fun s1 hs1 hlen => ?_)
    cases hm1 : matchPsSubmit s1 with
    | none => rfl
    | some r =>
      exfalso
      obtain ⟨rest, hrest⟩ := matchPsSubmit_starts hm1
      obtain ⟨a, ha⟩ := hs1
      rw [hrest, hs0eq] at ha
      have hlenP : a.length + (psL ++ rest).length =
          ((scheme ++ sl "://codeforces.com") ++ (psL ++ (n ++ ('/' :: X)))).length := by
        rw [← ha]
        simp [List.length_append]
      have hlen1 : (psL ++ (n ++ ('/' :: X))).length < (psL ++ rest).length := by
        have h1 := congrArg List.length hrest
        simp only [List.length_append] at h1 ⊢
        have h2 : (psL ++ (n ++ ('/' :: X))).length < s1.length := hlen
        simp only [List.length_append] at h2
        omega
      have haP : a.length < (scheme ++ sl "://codeforces.com").length := by
        simp only [List.length_append] at hlenP hlen1 ⊢
        omega
      rcases List.append_eq_append_iff.mp ha with ⟨w, hw1, hw2⟩ | ⟨w, hw1, hw2⟩
      · -- scheme ++ host = a ++ w
        have hwne : w ≠ [] := by
          intro h0
          subst h0
          have := congrArg List.length hw1
          simp only [List.length_append, List.length_nil] at this
          simp only [List.length_append] at haP
          omega
        rcases List.append_eq_append_iff.mp hw2 with ⟨v, hv1, hv2⟩ | ⟨v, hv1, hv2⟩
        · -- w = psL ++ v : the host head would contain "/problemset/problem/"
          exact ps_not_in_host hs ⟨a, v, by rw [hw1, hv1, ← List.append_assoc]⟩
        · -- psL = w ++ v
          exact ps_occ_not_early hw1 hwne ⟨v, hv1⟩
      · -- a = scheme ++ host ++ w : impossible, a is shorter
        have := congrArg List.length hw1
        simp only [List.length_append] at this haP
        omega
  unfold rewriteUrl
  rw [hnc, hng, hps, hscan]
  simp

/-- Occurrences in a suffix are occurrences in the whole list. -/
theorem occ_of_suffix {pat s0 u : List Char} (h : Occ pat s0) (hs : s0 <:+ u) :
    Occ pat u := by
  obtain ⟨a, ha⟩ := hs
  obtain ⟨x, y, hxy⟩ := h
  exact ⟨a ++ x, y, by rw [← ha, hxy]; simp [List.append_assoc]⟩

theorem digitProbTail_occ {s2 : List Char} {r : List Char × List Char}
    (h : digitProbTail s2 = some r) : Occ probL s2 := by
  unfold digitProbTail at h
  simp only at h
  by_cases hd : (s2.takeWhile Char.isDigit).isEmpty = true
  · rw [if_pos hd] at h; cases h
  · rw [if_neg hd] at h
    cases h4 : stripLit probL (s2.dropWhile Char.isDigit) with
    | none => rw [h4] at h; cases h
    | some s4 =>
      have hsp := stripLit_eq_some h4
      refine ⟨s2.takeWhile Char.isDigit, s4, ?_⟩
      conv_lhs => rw [← takeWhile_append_dropWhile_eq Char.isDigit s2]
      rw [hsp]
      simp [List.append_assoc]

theorem matchContest_family {s : List Char} {r : List Char × List Char}
    (h : matchContest s = some r) :
    (Occ contestL s ∨ Occ gymL s) ∧ Occ probL s := by
  unfold matchContest at h
  cases h1 : stripLit (sl "://codeforces.com/") s with
  | none => rw [h1] at h; cases h
  | some s1 =>
    rw [h1, Option.some_bind] at h
    have hs1 := stripLit_eq_some h1
    cases h2 : stripLit (sl "gym/") s1 with
    | some s2 =>
      rw [h2, orElse_some_eval, Option.some_bind] at h
      have hs2 := stripLit_eq_some h2
      have hocc2 := digitProbTail_occ h
      have hre : sl "://codeforces.com/" ++ sl "gym/" = sl "://codeforces.com" ++ gymL := by
        decide
      have hsform : s = (sl "://codeforces.com" ++ gymL) ++ s2 := by
        rw [hs1, hs2, ← List.append_assoc, hre]
      constructor
      · refine Or.inr ⟨sl "://codeforces.com", s2, ?_⟩
        rw [hsform]
      · refine occ_of_suffix hocc2 ⟨sl "://codeforces.com" ++ gymL, ?_⟩
        rw [hsform]
    | none =>
      rw [h2, orElse_none_eval] at h
      cases h3 : stripLit (sl "contest/") s1 with
      | none => rw [h3] at h; cases h
      | some s2 =>
        rw [h3, Option.some_bind] at h
        have hs2 := stripLit_eq_some h3
        have hocc2 := digitProbTail_occ h
        have hre : sl "://codeforces.com/" ++ sl "contest/" =
            sl "://codeforces.com" ++ contestL := by decide
        have hsform : s = (sl "://codeforces.com" ++ contestL) ++ s2 := by
          rw [hs1, hs2, ← List.append_assoc, hre]
        constructor
        · refine Or.inl ⟨sl "://codeforces.com", s2, ?_⟩
          rw [hsform]
        · refine occ_of_suffix hocc2 ⟨sl "://codeforces.com" ++ contestL, ?_⟩
          rw [hsform]

theorem matchPs_family {s : List Char} {r : List Char × List Char}
    (h : matchPs s = some r) : Occ psL s := by
  unfold matchPs at h
  cases h1 : stripLit (sl "://codeforces.com/problemset/problem/") s with
  | none => rw [h1] at h; cases h
  | some s1 =>
    have hs1 := stripLit_eq_some h1
    have hre : sl "://codeforces.com/problemset/problem/" =
        sl "://codeforces.com" ++ psL := by decide
    exact ⟨sl "://codeforces.com", s1, by rw [hs1, hre, List.append_assoc]⟩

theorem matchGroup_family {s : List Char} {r : List Char × List Char}
    (h : matchGroup s = some r) : Occ groupL s ∧ Occ probL s := by
  unfold matchGroup at h
  cases h1 : stripLit (sl "://codeforces.com/group/") s with
  | none => rw [h1] at h; cases h
  | some s1 =>
    rw [h1, Option.some_bind] at h
    simp only at h
    have hs1 := stripLit_eq_some h1
    have hre : sl "://codeforces.com/group/" = sl "://codeforces.com" ++ groupL := by decide
    constructor
    · exact ⟨sl "://codeforces.com", s1, by rw [hs1, hre, List.append_assoc]⟩
    · by_cases hw : (s1.takeWhile isWordC).isEmpty = true
      · rw [if_pos hw] at h; cases h
      · rw [if_neg hw] at h
        cases h3 : stripLit (sl "/contest/") (s1.dropWhile isWordC) with
        | none => rw [h3] at h; cases h
        | some s3 =>
          rw [h3, Option.some_bind] at h
          have hocc3 := digitProbTail_occ h
          have hs3 := stripLit_eq_some h3
          have hocc1 : Occ probL s1 := by
            refine occ_of_suffix (occ_of_suffix hocc3 ⟨sl "/contest/", hs3.symm⟩)
              ⟨s1.takeWhile isWordC, ?_⟩
            exact takeWhile_append_dropWhile_eq isWordC s1
          exact occ_of_suffix hocc1 ⟨sl "://codeforces.com/group/", hs1.symm⟩

/-- C8: a URL matching none of the recognized families is reported not-found
by the parser and left unchanged by the rewrite. -/
theorem unrecognized_url_noop (u : List Char) (h : recognizedFamily u = false) :
    parseCfUrl u = none ∧ rewriteUrl u = u := by
  unfold recognizedFamily at h
  rw [Bool.or_eq_false_iff] at h
  obtain ⟨h123, h4⟩ := h
  rw [Bool.or_eq_false_iff] at h123
  obtain ⟨h12, h3⟩ := h123
  rw [Bool.or_eq_false_iff] at h12
  obtain ⟨h1, h2⟩ := h12
  constructor
  · have hmc : scanLast matchContest u = none := by
      refine scanLast_eq_none (fun s0 hs0 => ?_)
      cases hm : matchContest s0 with
      | none => rfl
      | some r =>
        exfalso
        obtain ⟨hcg, hpr⟩ := matchContest_family hm
        have hprB : hasSub probL u = true := (hasSub_iff _ _).mpr (occ_of_suffix hpr hs0)
        rcases hcg with hcc | hgg
        · have hccB := (hasSub_iff _ _).mpr (occ_of_suffix hcc hs0)
          rw [hccB, hprB] at h1
          cases h1
        · have hggB := (hasSub_iff _ _).mpr (occ_of_suffix hgg hs0)
          rw [hggB, hprB] at h2
          cases h2
    have hmp : scanLast matchPs u = none := by
      refine scanLast_eq_none (fun s0 hs0 => ?_)
      cases hm : matchPs s0 with
      | none => rfl
      | some r =>
        exfalso
        have hpsB := (hasSub_iff _ _).mpr (occ_of_suffix (matchPs_family hm) hs0)
        rw [hpsB] at h3
        cases h3
    have hmg : scanLast matchGroup u = none := by
      refine scanLast_eq_none (fun s0 hs0 => ?_)
      cases hm : matchGroup s0 with
      | none => rfl
      | some r =>
        exfalso
        obtain ⟨hgr, hpr⟩ := matchGroup_family hm
        have hgrB := (hasSub_iff _ _).mpr (occ_of_suffix hgr hs0)
        have hprB := (hasSub_iff _ _).mpr (occ_of_suffix hpr hs0)
        rw [hgrB, hprB] at h4
        cases h4
    unfold parseCfUrl
    rw [hmc, hmp, hmg]
  · unfold rewriteUrl
    rw [h1, h2, h3, h4]
    simp

theorem trimmed_isEmpty_iff (s : List Char) :
    (trimmed s).isEmpty = true ↔ ∀ c ∈ s, isQtSpace c = true := by
  unfold trimmed
  rw [List.isEmpty_iff, List.reverse_eq_nil_iff, List.dropWhile_eq_nil_iff]
  constructor
  · intro h c hc
    rcases List.mem_append.mp
        ((takeWhile_append_dropWhile_eq isQtSpace s) ▸ hc) with h1 | h1
    · exact mem_takeWhile_class h1
    · exact h c (List.mem_reverse.mpr h1)
  · intro h c hc
    exact h c ((List.dropWhile_sublist isQtSpace).subset (List.mem_reverse.mp hc))

/-- The characters produced by the text-mode read come from the raw bytes or
are the `\n` standing for a translated `\r\n` pair. -/
theorem textRead_mem {s : List Char} {c : Char} (h : c ∈ textRead s) :
    c ∈ s ∨ c = '\n' := by
  induction s using textRead.induct with
  | case1 => cases h
  | case2 t ih =>
    rw [textRead] at h
    rcases List.mem_cons.mp h with rfl | h2
    · exact Or.inr rfl
    · rcases ih h2 with h3 | h3
      · exact Or.inl (by simp [h3])
      · exact Or.inr h3
  | case3 c0 t hne ih =>
    have hstep : textRead (c0 :: t) = c0 :: textRead t := by
      rw [textRead]
      exact hne
    rw [hstep] at h
    rcases List.mem_cons.mp h with rfl | h2
    · exact Or.inl (by simp)
    · rcases ih h2 with h3 | h3
      · exact Or.inl (by simp [h3])
      · exact Or.inr h3

/-- Text-mode reading of an all-whitespace file is all-whitespace. -/
theorem textRead_space {s : List Char} (h : ∀ c ∈ s, isQtSpace c = true) :
    ∀ c ∈ textRead s, isQtSpace c = true := by
  intro c hc
  rcases textRead_mem hc with h1 | h1
  · exact h c h1
  · subst h1
    decide

/-- A raw file without carriage returns reads back unchanged. -/
theorem textRead_no_cr {s : List Char} (h : ('\r' : Char) ∉ s) : textRead s = s := by
  induction s using textRead.induct with
  | case1 => rfl
  | case2 t ih =>
    exact absurd (by simp) h
  | case3 c0 t hne ih =>
    have hstep : textRead (c0 :: t) = c0 :: textRead t := by
      rw [textRead]
      exact hne
    rw [hstep, ih (fun hc => h (List.mem_cons_of_mem _ hc))]

/-- C10: the availability check ignores the configured path and always
succeeds — browser-based submission needs no external binary. -/
theorem check_always_true (path : List Char) : check path = true := rfl

/-- C3: an unreadable source file, or a source whose content is empty after
trimming whitespace, aborts the submission with only the corresponding error
report: no clipboard write, no browser-open request, no automation spawn,
and the automation-process slot is untouched. -/
theorem unreadable_or_empty_aborts (st : CFState) (fp url raw : List Char)
    (b bo : Bool) (plat : Platform) (fr : Nat) :
    ((submit st fp none url b bo plat fr).1.all (fun e => !(isSideEffect e)) = true ∧
      Ev.logError (readFailBody fp) ∈ (submit st fp none url b bo plat fr).1 ∧
      (submit st fp none url b bo plat fr).2.browserAutomation = st.browserAutomation) ∧
    ((trimmed raw).isEmpty = true →
      (submit st fp (some raw) url b bo plat fr).1.all (fun e => !(isSideEffect e)) = true ∧
      Ev.logError emptyBody ∈ (submit st fp (some raw) url b bo plat fr).1 ∧
      (submit st fp (some raw) url b bo plat fr).2.browserAutomation = st.browserAutomation) := by
  constructor
  · refine ⟨rfl, ?_, ?_⟩
    · unfold submit
      cases parseCfUrl url <;> simp
    · unfold submit
      cases parseCfUrl url <;> simp
  · intro hraw
    have hsrc : (trimmed (textRead raw)).isEmpty = true :=
      (trimmed_isEmpty_iff _).mpr (textRead_space ((trimmed_isEmpty_iff _).mp hraw))
    refine ⟨?_, ?_, ?_⟩
    · unfold submit
      cases parseCfUrl url <;> simp [hsrc, isSideEffect]
    · unfold submit
      cases parseCfUrl url <;> simp [hsrc]
    · unfold submit
      cases parseCfUrl url <;> simp [hsrc]

/-- C6: on every platform that spawns automation, reaching the automation
step kills a still-live previous process before the new one is started, so
along the whole event sequence at most one automation process is alive, and
afterwards exactly the fresh process is held. -/
theorem single_automation_session (st : CFState) (b : Bool) (plat : Platform)
    (fr n : Nat) (hplat : plat ≠ Platform.other) :
    (aliveAfter st.browserAutomation.toList
        (((automateSubmission st b plat fr).1).take n)).length ≤ 1 ∧
    (automateSubmission st b plat fr).2.browserAutomation = some fr ∧
    (∀ p, st.browserAutomation = some p →
      (automateSubmission st b plat fr).1 = [Ev.killProc p, Ev.spawnProc fr]) := by
  cases plat with
  | other => exact absurd rfl hplat
  | macos =>
    cases hba : st.browserAutomation with
    | none =>
      refine ⟨?_, rfl, fun p hp => by exact Option.noConfusion hp⟩
      rcases n with _ | n
      · simp [aliveAfter, automateSubmission, hba]
      · simp [aliveAfter, automateSubmission, hba, List.take]
    | some p =>
      refine ⟨?_, rfl, fun q hq => by injection hq with h; subst h; simp [automateSubmission, hba]⟩
      rcases n with _ | _ | n
      · simp [aliveAfter, automateSubmission, hba]
      · simp [aliveAfter, automateSubmission, hba, List.take, List.erase_cons_head]
      · simp [aliveAfter, automateSubmission, hba, List.take, List.erase_cons_head]
  | linux =>
    cases hba : st.browserAutomation with
    | none =>
      refine ⟨?_, rfl, fun p hp => by exact Option.noConfusion hp⟩
      rcases n with _ | n
      · simp [aliveAfter, automateSubmission, hba]
      · simp [aliveAfter, automateSubmission, hba, List.take]
    | some p =>
      refine ⟨?_, rfl, fun q hq => by injection hq with h; subst h; simp [automateSubmission, hba]⟩
      rcases n with _ | _ | n
      · simp [aliveAfter, automateSubmission, hba]
      · simp [aliveAfter, automateSubmission, hba, List.take, List.erase_cons_head]
      · simp [aliveAfter, automateSubmission, hba, List.take, List.erase_cons_head]
  | windows =>
    cases hba : st.browserAutomation with
    | none =>
      refine ⟨?_, rfl, fun p hp => by exact Option.noConfusion hp⟩
      rcases n with _ | n
      · simp [aliveAfter, automateSubmission, hba]
      · simp [aliveAfter, automateSubmission, hba, List.take]
    | some p =>
      refine ⟨?_, rfl, fun q hq => by injection hq with h; subst h; simp [automateSubmission, hba]⟩
      rcases n with _ | _ | n
      · simp [aliveAfter, automateSubmission, hba]
      · simp [aliveAfter, automateSubmission, hba, List.take, List.erase_cons_head]
      · simp [aliveAfter, automateSubmission, hba, List.take, List.erase_cons_head]

theorem no_open_toastEvs (st : CFState) (b : Bool) (body t : List Char) :
    Ev.openUrl t ∉ toastEvs st b body := by
  cases b <;> simp [toastEvs]

theorem no_open_auto (st : CFState) (b : Bool) (plat : Platform) (fr : Nat) (t : List Char) :
    Ev.openUrl t ∉ (automateSubmission st b plat fr).1 := by
  cases plat with
  | other =>
    simp [automateSubmission]
    intro h
    exact absurd h (no_open_toastEvs st b fallbackToastBody t)
  | macos => cases hba : st.browserAutomation <;> simp [automateSubmission, hba]
  | linux => cases hba : st.browserAutomation <;> simp [automateSubmission, hba]
  | windows => cases hba : st.browserAutomation <;> simp [automateSubmission, hba]

/-- On a readable, non-empty source, the event trace of `submit` starts with
the five steps of lines 49-115 in order — start log, clipboard write, copy
log, opening log, browser-open request — and no later event is a
browser-open request. -/
theorem submit_trace_shape (st : CFState) (fp url raw : List Char)
    (b bo : Bool) (plat : Platform) (fr : Nat)
    (hne : (trimmed (textRead raw)).isEmpty = false) :
    ∃ rest, (submit st fp (some raw) url b bo plat fr).1 =
      Ev.logInfo startBody :: Ev.clipboardSet (textRead raw) ::
      Ev.logInfo (copiedBody (textRead raw).length) ::
      Ev.logInfo (openingBody (rewriteUrl url)) ::
      Ev.openUrl (rewriteUrl url) :: rest ∧
      ∀ t, Ev.openUrl t ∉ rest := by
  unfold submit
  rcases hp : parseCfUrl url with _ | r <;> simp only [hp, hne] <;> cases bo <;> simp
  · exact fun t => no_open_toastEvs st b browserFailBody t
  · refine fun t => ⟨?_, ?_⟩
    · intro h
      exact absurd h (no_open_toastEvs st b autoToastBody t)
    · intro h
      exact absurd h (no_open_auto st b plat fr t)
  · exact fun t => no_open_toastEvs { st with problemContestId := r.1, problemCode := r.2 }
      b browserFailBody t
  · refine fun t => ⟨?_, ?_⟩
    · intro h
      exact absurd h (no_open_toastEvs { st with problemContestId := r.1, problemCode := r.2 }
        b autoToastBody t)
    · intro h
      exact absurd h (no_open_auto { st with problemContestId := r.1, problemCode := r.2 }
        b plat fr t)

/-- C1 (amended): for a readable, non-empty source, the trace of `submit`
holds the clipboard write at position 1, every browser-open request carries
the rewritten target URL and sits at position 4 — strictly after the
clipboard write — and the clipboard text is the file contents as read in Qt
text mode, which is byte-for-byte the raw file exactly when the file
contains no carriage return (`"\r\n"` pairs are translated to `"\n"`). -/
theorem clipboard_precedes_browser_open (st : CFState) (fp url raw : List Char)
    (b bo : Bool) (plat : Platform) (fr : Nat)
    (hne : (trimmed (textRead raw)).isEmpty = false) :
    (submit st fp (some raw) url b bo plat fr).1.get? 1
        = some (Ev.clipboardSet (textRead raw)) ∧
    (∀ j t, (submit st fp (some raw) url b bo plat fr).1.get? j
        = some (Ev.openUrl t) → t = rewriteUrl url ∧ j = 4) ∧
    (('\r' : Char) ∉ raw → textRead raw = raw) := by
  obtain ⟨rest, htr, hno⟩ := submit_trace_shape st fp url raw b bo plat fr hne
  refine ⟨by rw [htr]; rfl, ?_, textRead_no_cr⟩
  intro j t h
  rw [htr] at h
  rcases j with _ | _ | _ | _ | _ | j
  · simp at h
  · simp at h
  · simp at h
  · simp at h
  · simp at h
    exact ⟨h.symm, rfl⟩
  · simp only [List.get?_cons_succ] at h
    exact absurd (List.get?_mem h) (hno t)

/-- C1 counterexample to "byte-for-byte with no transformation": a source
file containing the bytes `"a\r\nb"` reaches the clipboard as `"a\nb"`,
because the file is read through `QTextStream` on a device opened with
`QIODevice::Text` (line 56), which translates CRLF line endings. -/
theorem clipboard_crlf_counterexample :
    (submit ⟨[], [], none⟩ (sl "f") (some (sl "a\r\nb")) (sl "u") false false
        Platform.linux 0).1.get? 1 = some (Ev.clipboardSet (sl "a\nb")) ∧
    textRead (sl "a\r\nb") ≠ sl "a\r\nb" := by decide

theorem clipboard_precedes_browser_open_witness :
    (trimmed (textRead (sl "ok"))).isEmpty = false ∧
    ((submit ⟨[], [], none⟩ (sl "f") (some (sl "ok")) (sl "u") true true
        Platform.linux 0).1.get? 1 = some (Ev.clipboardSet (textRead (sl "ok"))) ∧
     (∀ j t, (submit ⟨[], [], none⟩ (sl "f") (some (sl "ok")) (sl "u") true true
        Platform.linux 0).1.get? j = some (Ev.openUrl t) →
        t = rewriteUrl (sl "u") ∧ j = 4) ∧
     (('\r' : Char) ∉ sl "ok" → textRead (sl "ok") = sl "ok")) :=
  ⟨by decide, clipboard_precedes_browser_open ⟨[], [], none⟩ (sl "f") (sl "u") (sl "ok")
    true true Platform.linux 0 (by decide)⟩

/-- C2 (amended): only the macOS completion handler inspects the exit code —
success reports the success log (and no warning), failure reports the
"check browser" warning (and no success log).  The Linux and Windows
handlers discard the exit code (`Q_UNUSED(exitCode)`) and report success
unconditionally, never emitting a warning, even when the process failed. -/
theorem automation_finish_notifications (st : CFState) (b : Bool) (ec : Int) :
    ((ec = 0 →
        Ev.logInfo doneBody ∈ automationFinished Platform.macos st b ec ∧
        ∀ body, Ev.logWarn body ∉ automationFinished Platform.macos st b ec) ∧
     (ec ≠ 0 →
        Ev.logWarn macWarnBody ∈ automationFinished Platform.macos st b ec ∧
        Ev.logInfo doneBody ∉ automationFinished Platform.macos st b ec)) ∧
    (Ev.logInfo doneBody ∈ automationFinished Platform.linux st b ec ∧
     ∀ body, Ev.logWarn body ∉ automationFinished Platform.linux st b ec) ∧
    (Ev.logInfo doneBody ∈ automationFinished Platform.windows st b ec ∧
     ∀ body, Ev.logWarn body ∉ automationFinished Platform.windows st b ec) := by
  refine ⟨⟨fun h0 => ?_, fun h1 => ?_⟩, ⟨?_, ?_⟩, ⟨?_, ?_⟩⟩
  · cases b <;> simp [automationFinished, h0, toastEvs]
  · cases b <;> simp [automationFinished, h1, toastEvs]
  · cases b <;> simp [automationFinished, toastEvs]
  · cases b <;> simp [automationFinished, toastEvs]
  · cases b <;> simp [automationFinished, toastEvs]
  · cases b <;> simp [automationFinished, toastEvs]

/-- C2 counterexample: on Linux a failing automation process (exit code 1)
still produces the success notification and no warning (lines 230-236 ignore
the exit code), contradicting "otherwise a warning notification is emitted
on every platform that spawns an automation process". -/
theorem automation_linux_ignores_exit_code :
    automationFinished Platform.linux ⟨[], [], none⟩ false 1 = [Ev.logInfo doneBody] ∧
    Ev.logWarn macWarnBody ∉ automationFinished Platform.linux ⟨[], [], none⟩ false 1 := by
  decide

theorem automation_finish_notifications_witness :
    ((1 : Int) ≠ 0) ∧
    (Ev.logWarn macWarnBody ∈ automationFinished Platform.macos ⟨[], [], none⟩ true 1 ∧
     Ev.logInfo doneBody ∉ automationFinished Platform.macos ⟨[], [], none⟩ true 1) :=
  ⟨by decide, (automation_finish_notifications ⟨[], [], none⟩ true 1).1.2 (by decide)⟩

theorem toast_head_toastEvs {st : CFState} {b : Bool} {body hd bd : List Char}
    (h : Ev.toast hd bd ∈ toastEvs st b body) : hd = headline st := by
  cases b with
  | false => simp [toastEvs] at h
  | true =>
    simp [toastEvs] at h
    exact h.1

theorem toast_head_auto {st : CFState} {b : Bool} {plat : Platform} {fr : Nat}
    {hd bd : List Char}
    (h : Ev.toast hd bd ∈ (automateSubmission st b plat fr).1) : hd = headline st := by
  cases plat with
  | other =>
    simp [automateSubmission] at h
    exact toast_head_toastEvs h
  | macos => cases hba : st.browserAutomation <;> simp [automateSubmission, hba] at h
  | linux => cases hba : st.browserAutomation <;> simp [automateSubmission, hba] at h
  | windows => cases hba : st.browserAutomation <;> simp [automateSubmission, hba] at h

theorem auto_snd_ids (st : CFState) (b : Bool) (plat : Platform) (fr : Nat) :
    (automateSubmission st b plat fr).2.problemContestId = st.problemContestId ∧
    (automateSubmission st b plat fr).2.problemCode = st.problemCode := by
  cases plat <;> simp [automateSubmission]

/-- The state after `submit` on a readable file carries the identifiers of
the parse step (line 52), and every toast emitted during `submit` is headed
by the headline built from exactly those identifiers. -/
theorem submit_ids_and_toasts (st : CFState) (fp url raw : List Char) (b bo : Bool)
    (plat : Platform) (fr : Nat) :
    ∃ st1 : CFState,
      (parseCfUrl url = none → st1 = st) ∧
      (∀ n X, parseCfUrl url = some (n, X) →
        st1.problemContestId = n ∧ st1.problemCode = X) ∧
      (submit st fp (some raw) url b bo plat fr).2.problemContestId = st1.problemContestId ∧
      (submit st fp (some raw) url b bo plat fr).2.problemCode = st1.problemCode ∧
      (∀ hd bd, Ev.toast hd bd ∈ (submit st fp (some raw) url b bo plat fr).1 →
        hd = headline st1) := by
  unfold submit
  rcases hp : parseCfUrl url with _ | r
  · refine ⟨st, fun _ => rfl, fun n X h => Option.noConfusion h,
      ?_, ?_, ?_⟩
    · by_cases he : (trimmed (textRead raw)).isEmpty = true
      · simp [he]
      · have he' : (trimmed (textRead raw)).isEmpty = false := by simpa using he
        cases bo
        · simp [he']
        · simp [he']
          exact (auto_snd_ids st b plat fr).1
    · by_cases he : (trimmed (textRead raw)).isEmpty = true
      · simp [he]
      · have he' : (trimmed (textRead raw)).isEmpty = false := by simpa using he
        cases bo
        · simp [he']
        · simp [he']
          exact (auto_snd_ids st b plat fr).2
    · intro hd bd h
      by_cases he : (trimmed (textRead raw)).isEmpty = true
      · simp [he] at h
      · have he' : (trimmed (textRead raw)).isEmpty = false := by simpa using he
        cases bo
        · simp [he'] at h
          exact toast_head_toastEvs h
        · simp [he'] at h
          rcases h with h | h
          · exact toast_head_toastEvs h
          · exact toast_head_auto h
  · refine ⟨{ st with problemContestId := r.1, problemCode := r.2 },
      fun h => Option.noConfusion h,
      fun n X h => ?_, ?_, ?_, ?_⟩
    · injection h with h
      subst h
      exact ⟨rfl, rfl⟩
    · by_cases he : (trimmed (textRead raw)).isEmpty = true
      · simp [he]
      · have he' : (trimmed (textRead raw)).isEmpty = false := by simpa using he
        cases bo
        · simp [he']
        · simp [he']
          exact (auto_snd_ids { st with problemContestId := r.1, problemCode := r.2 }
            b plat fr).1
    · by_cases he : (trimmed (textRead raw)).isEmpty = true
      · simp [he]
      · have he' : (trimmed (textRead raw)).isEmpty = false := by simpa using he
        cases bo
        · simp [he']
        · simp [he']
          exact (auto_snd_ids { st with problemContestId := r.1, problemCode := r.2 }
            b plat fr).2
    · intro hd bd h
      by_cases he : (trimmed (textRead raw)).isEmpty = true
      · simp [he] at h
      · have he' : (trimmed (textRead raw)).isEmpty = false := by simpa using he
        cases bo
        · simp [he'] at h
          exact toast_head_toastEvs h
        · simp [he'] at h
          rcases h with h | h
          · exact toast_head_toastEvs h
          · exact toast_head_auto h

/-- C7 (amended): `submit` stores the parsed identifiers when the URL
matches a recognized pattern, and every toast headline is exactly
`"Contest {contestId} Problem {problemCode}"` built from the stored
identifiers; but when parsing fails the previously stored identifiers are
RETAINED unchanged (the out-parameters of `parseCfUrl` are only assigned on
a match), not reset to empty strings — they are empty only while nothing
has ever been parsed. -/
theorem toast_headline_and_id_retention (st : CFState) (fp url raw : List Char)
    (b bo : Bool) (plat : Platform) (fr : Nat) :
    (∀ n X, parseCfUrl url = some (n, X) →
      (submit st fp (some raw) url b bo plat fr).2.problemContestId = n ∧
      (submit st fp (some raw) url b bo plat fr).2.problemCode = X) ∧
    (parseCfUrl url = none →
      (submit st fp (some raw) url b bo plat fr).2.problemContestId = st.problemContestId ∧
      (submit st fp (some raw) url b bo plat fr).2.problemCode = st.problemCode) ∧
    (∀ hd bd, Ev.toast hd bd ∈ (submit st fp (some raw) url b bo plat fr).1 →
      hd = sl "Contest " ++ (submit st fp (some raw) url b bo plat fr).2.problemContestId
        ++ sl " Problem " ++ (submit st fp (some raw) url b bo plat fr).2.problemCode) := by
  obtain ⟨st1, hnone, hsome, hid1, hid2, htoast⟩ :=
    submit_ids_and_toasts st fp url raw b bo plat fr
  refine ⟨fun n X h => ?_, fun h => ?_, fun hd bd h => ?_⟩
  · obtain ⟨e1, e2⟩ := hsome n X h
    exact ⟨hid1.trans e1, hid2.trans e2⟩
  · rw [hnone h] at hid1 hid2
    exact ⟨hid1, hid2⟩
  · rw [htoast hd bd h]
    simp [headline, hid1, hid2]

/-- C7 counterexample to "defaulting to empty strings when the URL matches
no recognized pattern": after a successful submission for contest 1500
problem C1, submitting an unrecognized URL `"x"` leaves the old identifiers
in place — the toast headline is the stale `"Contest 1500 Problem C1"`, not
`"Contest  Problem "` with empty identifiers. -/
theorem stale_ids_counterexample :
    parseCfUrl (sl "x") = none ∧
    (submit ⟨[], [], none⟩ (sl "f") (some (sl "ok"))
        (sl "https://codeforces.com/contest/1500/problem/C1") true false
        Platform.linux 0).2.problemContestId = sl "1500" ∧
    (submit (submit ⟨[], [], none⟩ (sl "f") (some (sl "ok"))
        (sl "https://codeforces.com/contest/1500/problem/C1") true false
        Platform.linux 0).2 (sl "f") (some (sl "ok")) (sl "x") true false
        Platform.linux 0).2.problemCode = sl "C1" ∧
    Ev.toast (sl "Contest 1500 Problem C1") browserFailBody
      ∈ (submit (submit ⟨[], [], none⟩ (sl "f") (some (sl "ok"))
          (sl "https://codeforces.com/contest/1500/problem/C1") true false
          Platform.linux 0).2 (sl "f") (some (sl "ok")) (sl "x") true false
          Platform.linux 0).1 ∧
    Ev.toast (sl "Contest  Problem ") browserFailBody
      ∉ (submit (submit ⟨[], [], none⟩ (sl "f") (some (sl "ok"))
          (sl "https://codeforces.com/contest/1500/problem/C1") true false
          Platform.linux 0).2 (sl "f") (some (sl "ok")) (sl "x") true false
          Platform.linux 0).1 := by decide

theorem toast_headline_and_id_retention_witness :
    parseCfUrl (sl "x") = none ∧
    ((submit ⟨sl "1500", sl "C1", none⟩ (sl "f") (some (sl "ok")) (sl "x") true false
        Platform.linux 0).2.problemContestId = (⟨sl "1500", sl "C1", none⟩ : CFState).problemContestId ∧
     (submit ⟨sl "1500", sl "C1", none⟩ (sl "f") (some (sl "ok")) (sl "x") true false
        Platform.linux 0).2.problemCode = (⟨sl "1500", sl "C1", none⟩ : CFState).problemCode) :=
  ⟨by decide, (toast_headline_and_id_retention ⟨sl "1500", sl "C1", none⟩ (sl "f") (sl "x")
    (sl "ok") true false Platform.linux 0).2.1 (by decide)⟩

/-- C9 counterexample: on a URL where `"/problem/"` occurs twice, the
split-based rewrite (line 79) produces `"/submit/submit/"` segments and a
second application changes the string again, so `rewrite ∘ rewrite ≠
rewrite` in general. -/
theorem rewrite_not_idempotent :
    countOcc probL (sl "https://codeforces.com/contest/1/problem/problem/A") = 2 ∧
    rewriteUrl (rewriteUrl (sl "https://codeforces.com/contest/1/problem/problem/A")) ≠
      rewriteUrl (sl "https://codeforces.com/contest/1/problem/problem/A") := by decide

theorem rewriteUrl_idem_witness :
    countOcc probL (sl "https://codeforces.com/contest/1500/problem/C1") ≤ 1 ∧
    rewriteUrl (rewriteUrl (sl "https://codeforces.com/contest/1500/problem/C1")) =
      rewriteUrl (sl "https://codeforces.com/contest/1500/problem/C1") :=
  ⟨by decide, rewriteUrl_idem (sl "https://codeforces.com/contest/1500/problem/C1")
    (by decide)⟩

theorem unreadable_or_empty_aborts_witness :
    (trimmed (sl " ")).isEmpty = true ∧
    ((submit ⟨[], [], none⟩ (sl "f") (some (sl " ")) (sl "u") true true
        Platform.linux 0).1.all (fun e => !(isSideEffect e)) = true ∧
     Ev.logError emptyBody ∈ (submit ⟨[], [], none⟩ (sl "f") (some (sl " ")) (sl "u")
        true true Platform.linux 0).1 ∧
     (submit ⟨[], [], none⟩ (sl "f") (some (sl " ")) (sl "u") true true
        Platform.linux 0).2.browserAutomation = (⟨[], [], none⟩ : CFState).browserAutomation) :=
  ⟨by decide, (unreadable_or_empty_aborts ⟨[], [], none⟩ (sl "f") (sl "u") (sl " ")
    true true Platform.linux 0).2 (by decide)⟩

theorem contest_url_parse_rewrite_witness :
    ((∀ c ∈ sl "https", Char.isAlphanum c = true) ∧ sl "1500" ≠ [] ∧
     (∀ c ∈ sl "1500", Char.isDigit c = true) ∧ sl "C1" ≠ [] ∧
     (∀ c ∈ sl "C1", Char.isAlphanum c = true)) ∧
    (parseCfUrl (sl "https" ++ sl "://codeforces.com/contest/" ++ sl "1500" ++
        sl "/problem/" ++ sl "C1") = some (sl "1500", sl "C1") ∧
     rewriteUrl (sl "https" ++ sl "://codeforces.com/contest/" ++ sl "1500" ++
        sl "/problem/" ++ sl "C1") =
       sl "https" ++ sl "://codeforces.com/contest/" ++ sl "1500" ++ sl "/submit/" ++ sl "C1") :=
  ⟨⟨by decide, by decide, by decide, by decide, by decide⟩,
   contest_url_parse_rewrite (sl "https") (sl "1500") (sl "C1")
     (by decide) (by decide) (by decide) (by decide) (by decide)⟩

theorem problemset_url_rewrite_witness :
    ((∀ c ∈ sl "https", Char.isAlphanum c = true) ∧ sl "4" ≠ [] ∧
     (∀ c ∈ sl "4", Char.isDigit c = true) ∧ sl "A" ≠ [] ∧
     (∀ c ∈ sl "A", Char.isAlphanum c = true)) ∧
    rewriteUrl (sl "https" ++ sl "://codeforces.com/problemset/problem/" ++ sl "4" ++
        sl "/" ++ sl "A") =
      sl "https://codeforces.com/contest/" ++ sl "4" ++ sl "/submit/" ++ sl "A" :=
  ⟨⟨by decide, by decide, by decide, by decide, by decide⟩,
   problemset_url_rewrite (sl "https") (sl "4") (sl "A")
     (by decide) (by decide) (by decide) (by decide) (by decide)⟩

theorem single_automation_session_witness :
    (Platform.linux ≠ Platform.other) ∧
    (automateSubmission ⟨[], [], some 7⟩ true Platform.linux 9).1 =
      [Ev.killProc 7, Ev.spawnProc 9] :=
  ⟨by decide, (single_automation_session ⟨[], [], some 7⟩ true Platform.linux 9 2
    (by decide)).2.2 7 rfl⟩

theorem unrecognized_url_noop_witness :
    recognizedFamily (sl "hello") = false ∧
    (parseCfUrl (sl "hello") = none ∧ rewriteUrl (sl "hello") = sl "hello") :=
  ⟨by decide, unrecognized_url_noop (sl "hello") (by decide)⟩
